import Mathlib

/-!
# Parallel minimax search for Abalone: search strategy, worker loop, coordinator

A shallow embedding of `src/src_mpi/search-minmax.cpp` (class `MinMaxStrategy`) and
`src/src_mpi/player.cpp` (`MyDomain::received`, `processWork`, the opening tables).

* The board is stateful in the source (`playMove` / `takeBack` mutate it in place), so every
  embedded function passes the board explicitly and returns the board it leaves behind.
* Every embedded function also returns the list of observable events it performed
  (moves played, evaluator calls, callbacks, MPI sends and receives), in program order.
* `int` values are embedded as `Int`; the only arithmetic of the source is `depth + 1`
  below `_maxDepth`, `k++` below the list length and the negation of an evaluation.
-/

namespace Abalone

/-! ## Moves -/

/-- The directions `Move::...` named by `player.cpp`; `other` stands for the remaining
enumerators of the declaration in `move.h`. -/
inductive Direction where
  | RightDown
  | LeftDown
  | LeftUp
  | other (code : Nat)
  deriving DecidableEq, Repr

/-- The move kinds `Move::...` named by `player.cpp`; `none` is the distinguished
"no move" kind tested at `player.cpp:283`, `other` stands for the remaining enumerators. -/
inductive MoveType where
  | move3
  | move2
  | push2
  | right2
  | none
  | other (code : Nat)
  deriving DecidableEq, Repr

/-- A move `Move(field, direction, type)`. -/
structure Move where
  field : Int
  direction : Direction
  type : MoveType
  deriving DecidableEq, Repr

/-! ## The board interface used by the search

`Board`, `MoveList` and `Evaluator` are declared outside `src/`; the search only uses the
operations below, which are taken as parameters. A `MoveList` is embedded as the list of
its moves in `getNext` order. -/

/-- The operations of `SearchStrategy` / `Board` that `MinMaxStrategy` calls. -/
structure Game (B : Type) where
  generateMoves : B → List Move
  playMove : B → Move → B
  takeBack : B → B
  evaluate : B → Int
  minEvaluation : Int
  maxEvaluation : Int

/-- Observable events of a search, in program order. -/
inductive SEv where
  | enter (depth : Int)
  | play (m : Move)
  | back
  | evaluate
  | finishedNode (depth : Int)
  | foundBestMove (depth : Int) (m : Move) (eval : Int)
  deriving DecidableEq, Repr

/-- What a call returns: its `int` result, the board it leaves, the events it performed. -/
structure Res (B : Type) where
  eval : Int
  board : B
  log : List SEv

variable {B : Type}

/-- The leaf branch of `minimax_eval` (`search-minmax.cpp:93-100`). -/
def leafEval (g : Game B) (depth : Int) (m : Move) (b : B) : Res B :=
  let b1 := g.playMove b m
  let eval := g.evaluate b1
  let b2 := g.takeBack b1
  ⟨eval, b2, [.enter depth, .play m, .evaluate, .back, .finishedNode depth]⟩

/-- The `while (list.getNext(m_child))` loop of the max branch (`search-minmax.cpp:118-126`);
`call` is the recursive call `minimax_eval(depth + 1, ·)`. -/
def maxLoop (call : Move → B → Res B) : List Move → Int → B → Res B
  | [], bestEval, b => ⟨bestEval, b, []⟩
  | m_child :: list, bestEval, b =>
    let r := call m_child b
    let r2 := maxLoop call list (if r.eval > bestEval then r.eval else bestEval) r.board
    ⟨r2.eval, r2.board, r.log ++ r2.log⟩

/-- The `while (list.getNext(m_child))` loop of the min branch (`search-minmax.cpp:147-155`). -/
def minLoop (call : Move → B → Res B) : List Move → Int → B → Res B
  | [], bestEval, b => ⟨bestEval, b, []⟩
  | m_child :: list, bestEval, b =>
    let r := call m_child b
    let r2 := minLoop call list (if r.eval < bestEval then r.eval else bestEval) r.board
    ⟨r2.eval, r2.board, r.log ++ r2.log⟩

/-- The body of `MinMaxStrategy::minimax_eval`, by recursion on the number of plies left
below `_maxDepth` (which is `0` exactly when `depth >= _maxDepth`); the theorem
`minimax_eval_unfold` gives the recursion equation in the shape of the source.
C++ `%` truncates towards zero, hence `Int.tmod`. -/
def minimax_evalAux (g : Game B) (maxDepth : Int) : Nat → Int → Move → B → Res B
  | 0, depth, m, b => leafEval g depth m b
  | n + 1, depth, m, b =>
    if depth >= maxDepth then
      leafEval g depth m b
    else if Int.tmod depth 2 = 1 then
      let b1 := g.playMove b m
      let r := maxLoop (minimax_evalAux g maxDepth n (depth + 1)) (g.generateMoves b1)
        g.minEvaluation b1
      ⟨r.eval, g.takeBack r.board,
        [.enter depth, .play m] ++ r.log ++ [.back, .finishedNode depth]⟩
    else
      let b1 := g.playMove b m
      let r := minLoop (minimax_evalAux g maxDepth n (depth + 1)) (g.generateMoves b1)
        g.maxEvaluation b1
      ⟨r.eval, g.takeBack r.board,
        [.enter depth, .play m] ++ r.log ++ [.back, .finishedNode depth]⟩

/-- `MinMaxStrategy::minimax_eval(depth, m)` with `_maxDepth = maxDepth` on board `b`. -/
def minimax_eval (g : Game B) (maxDepth depth : Int) (m : Move) (b : B) : Res B :=
  minimax_evalAux g maxDepth (maxDepth - depth).toNat depth m b

/-- The `while (list.getNext(m))` loop of `searchBestMove` (`search-minmax.cpp:60-70`). -/
def searchLoop (g : Game B) (maxDepth : Int) : List Move → Int → B → Res B
  | [], bestEval, b => ⟨bestEval, b, []⟩
  | m :: list, bestEval, b =>
    let r := minimax_eval g maxDepth 0 m b
    if r.eval > bestEval then
      let r2 := searchLoop g maxDepth list r.eval r.board
      ⟨r2.eval, r2.board, r.log ++ [.foundBestMove 0 m r.eval] ++ r2.log⟩
    else
      let r2 := searchLoop g maxDepth list bestEval r.board
      ⟨r2.eval, r2.board, r.log ++ r2.log⟩

/-- `MinMaxStrategy::searchBestMove` (`search-minmax.cpp:47-73`); `eval` is the final
`bestEval`. -/
def searchBestMove (g : Game B) (maxDepth : Int) (b : B) : Res B :=
  let r := searchLoop g maxDepth (g.generateMoves b) g.minEvaluation b
  ⟨r.eval, r.board, r.log ++ [.finishedNode 0]⟩

/-! ### The recursion with a bound on its nesting

The same functions once more, as the source runs them on a call stack that holds at most
`fuel` activations of `minimax_eval` at a time; `none` means that the bound was hit. -/

/-- The loop of the max branch over calls that may hit the nesting bound. -/
def maxLoopFuel (call : Move → B → Option (Res B)) : List Move → Int → B → Option (Res B)
  | [], bestEval, b => some ⟨bestEval, b, []⟩
  | m_child :: list, bestEval, b =>
    match call m_child b with
    | none => none
    | some r =>
      match maxLoopFuel call list (if r.eval > bestEval then r.eval else bestEval) r.board with
      | none => none
      | some r2 => some ⟨r2.eval, r2.board, r.log ++ r2.log⟩

/-- The loop of the min branch over calls that may hit the nesting bound. -/
def minLoopFuel (call : Move → B → Option (Res B)) : List Move → Int → B → Option (Res B)
  | [], bestEval, b => some ⟨bestEval, b, []⟩
  | m_child :: list, bestEval, b =>
    match call m_child b with
    | none => none
    | some r =>
      match minLoopFuel call list (if r.eval < bestEval then r.eval else bestEval) r.board with
      | none => none
      | some r2 => some ⟨r2.eval, r2.board, r.log ++ r2.log⟩

/-- `MinMaxStrategy::minimax_eval` (`search-minmax.cpp:91-162`) with at most `fuel` nested
activations: the call itself takes one, each recursive call runs with one less. -/
def minimax_evalFuel (g : Game B) (maxDepth : Int) : Nat → Int → Move → B → Option (Res B)
  | 0, _, _, _ => none
  | fuel + 1, depth, m, b =>
    if depth >= maxDepth then
      some (leafEval g depth m b)
    else if Int.tmod depth 2 = 1 then
      let b1 := g.playMove b m
      match maxLoopFuel (minimax_evalFuel g maxDepth fuel (depth + 1)) (g.generateMoves b1)
          g.minEvaluation b1 with
      | none => none
      | some r =>
        some ⟨r.eval, g.takeBack r.board,
          [.enter depth, .play m] ++ r.log ++ [.back, .finishedNode depth]⟩
    else
      let b1 := g.playMove b m
      match minLoopFuel (minimax_evalFuel g maxDepth fuel (depth + 1)) (g.generateMoves b1)
          g.maxEvaluation b1 with
      | none => none
      | some r =>
        some ⟨r.eval, g.takeBack r.board,
          [.enter depth, .play m] ++ r.log ++ [.back, .finishedNode depth]⟩

/-- The loop of `searchBestMove` over calls `minimax_eval(0, m)` with at most `fuel` nested
activations each. -/
def searchLoopFuel (g : Game B) (maxDepth : Int) (fuel : Nat) :
    List Move → Int → B → Option (Res B)
  | [], bestEval, b => some ⟨bestEval, b, []⟩
  | m :: list, bestEval, b =>
    match minimax_evalFuel g maxDepth fuel 0 m b with
    | none => none
    | some r =>
      if r.eval > bestEval then
        match searchLoopFuel g maxDepth fuel list r.eval r.board with
        | none => none
        | some r2 => some ⟨r2.eval, r2.board, r.log ++ [.foundBestMove 0 m r.eval] ++ r2.log⟩
      else
        match searchLoopFuel g maxDepth fuel list bestEval r.board with
        | none => none
        | some r2 => some ⟨r2.eval, r2.board, r.log ++ r2.log⟩

/-- `MinMaxStrategy::searchBestMove` with at most `fuel` nested activations of
`minimax_eval`. -/
def searchBestMoveFuel (g : Game B) (maxDepth : Int) (fuel : Nat) (b : B) : Option (Res B) :=
  match searchLoopFuel g maxDepth fuel (g.generateMoves b) g.minEvaluation b with
  | none => none
  | some r => some ⟨r.eval, r.board, r.log ++ [.finishedNode 0]⟩

/-- The arguments of the last `foundBestMove` call in a log, if there was one. -/
def lastFound : List SEv → Option (Move × Int)
  | [] => none
  | .foundBestMove _ m e :: rest =>
    match lastFound rest with
    | some x => some x
    | none => some (m, e)
  | _ :: rest => lastFound rest

/-- The number of `playMove` calls in a log. -/
def playCount : List SEv → Nat
  | [] => 0
  | .play _ :: rest => playCount rest + 1
  | _ :: rest => playCount rest

/-- The number of `minimax_eval` calls in a log. -/
def enterCount : List SEv → Nat
  | [] => 0
  | .enter _ :: rest => enterCount rest + 1
  | _ :: rest => enterCount rest

/-- The number of `takeBack` calls in a log. -/
def backCount : List SEv → Nat
  | [] => 0
  | .back :: rest => backCount rest + 1
  | _ :: rest => backCount rest

/-- The number of moves played and not yet taken back after a log, starting from `h`. -/
def height : List SEv → Nat → Nat
  | [], h => h
  | .play _ :: rest, h => height rest (h + 1)
  | .back :: rest, h => height rest (h - 1)
  | _ :: rest, h => height rest h

/-- For each `evaluate()` call of a log, in order, the number of moves played and not yet
taken back at the time of the call, starting from `h`. -/
def evalDepths : List SEv → Nat → List Nat
  | [], _ => []
  | .play _ :: rest, h => evalDepths rest (h + 1)
  | .back :: rest, h => evalDepths rest (h - 1)
  | .evaluate :: rest, h => h :: evalDepths rest h
  | _ :: rest, h => evalDepths rest h

/-! ## The search entry point of the board

`Board::bestMove` and the field `_BOARD_bestEval` live in `board.cpp` / `search.cpp`,
which are not part of `src/`. -/

/-- Modelled from the spec: the distinguished "no move" value, a default-constructed `Move`
(constructor in `move.h`); only its kind `Move::none` is ever inspected. -/
def noMove : Move := ⟨0, .other 0, .none⟩

/-- What `bestMove` leaves behind: the returned move, `_BOARD_bestEval`, the board, the events. -/
structure Searched (B : Type) where
  move : Move
  bestEval : Int
  board : B
  log : List SEv

/-- Modelled from the spec: `Board::bestMove` runs the search strategy on the board and
returns the move of the last `foundBestMove` call ("no move" when there was none);
`_BOARD_bestEval` is the strategy's own best-node evaluation reported with that move, and
keeps its previous content `stale` when no move was reported. -/
def bestMove (g : Game B) (maxDepth : Int) (stale : Int) (b : B) : Searched B :=
  let r := searchBestMove g maxDepth b
  match lastFound r.log with
  | some (m, e) => ⟨m, e, r.board, r.log⟩
  | none => ⟨noMove, stale, r.board, r.log⟩

/-! ## The worker loop `processWork` -/

/-- A message from rank 0 as seen by `MPI_Recv` in `processWork`: its tag and the buffer,
embedded as the board that `unpack` reconstructs from it. -/
structure WorkMsg (B : Type) where
  tag : Int
  buffer : B

/-- Observable events of the worker loop. -/
inductive WEv (B : Type) where
  | recv (tag : Int)
  | bestMove (b : B)
  | send (eval : Int) (dest : Nat) (tag : Int)

/-- The board operations `processWork` calls: `isValid` and `bestMove`, the latter giving
the returned move and the content of `_BOARD_bestEval` after the call. -/
structure Worker (B : Type) where
  isValid : B → Bool
  bestMove : B → Move × Int

/-- Result of `processWork` on a finite stream of inbound messages: the events, and whether
the function returned (`false`: the stream ended and `MPI_Recv` blocks). -/
structure WorkerRun (B : Type) where
  log : List (WEv B)
  returned : Bool

/-- The loop `while (1)` of `processWork` (`player.cpp:325-359`) over the inbound messages. -/
def processWork (w : Worker B) : List (WorkMsg B) → WorkerRun B
  | [] => ⟨[], false⟩
  | msg :: inbound =>
    if msg.tag = 1000 then
      ⟨[.recv msg.tag], true⟩
    else
      let b := msg.buffer
      if !w.isValid b then
        let eval : Int := 14999
        let rest := processWork w inbound
        ⟨[.recv msg.tag, .send eval 0 msg.tag] ++ rest.log, rest.returned⟩
      else
        let r := w.bestMove b
        let eval : Int := -1 * r.2
        let rest := processWork w inbound
        ⟨[.recv msg.tag, .bestMove b, .send eval 0 msg.tag] ++ rest.log, rest.returned⟩

/-- The `(eval, tag)` pairs a worker log sends to rank 0, in order. -/
def sentReplies : List (WEv B) → List (Int × Int)
  | [] => []
  | .send eval _ tag :: rest => (eval, tag) :: sentReplies rest
  | _ :: rest => sentReplies rest

/-- The boards on which a worker log invoked the search strategy, in order. -/
def searchedBoards : List (WEv B) → List B
  | [] => []
  | .bestMove b :: rest => b :: searchedBoards rest
  | _ :: rest => searchedBoards rest

/-- The worker whose `bestMove` is the search strategy with the given depth. -/
def minmaxWorker (g : Game B) (isValid : B → Bool) (maxDepth stale : Int) : Worker B :=
  ⟨isValid, fun b => ((bestMove g maxDepth stale b).move, (bestMove g maxDepth stale b).bestEval)⟩

/-- The evaluation `processWork` sends back for one work message with the given tag and
buffer (`0` stands for "no reply", which only the terminate tag produces). -/
def workerScore (w : Worker B) (tag : Nat) (buffer : B) : Int :=
  match sentReplies (processWork w [⟨tag, buffer⟩]).log with
  | [] => 0
  | r :: _ => r.1

/-! ## The coordinator: `MyDomain::received`, branch `size > 1` -/

/-- A work item that has been sent to a worker and not been answered yet. -/
structure Work (B : Type) where
  dest : Nat
  tag : Nat
  buffer : B

/-- What `MPI_Recv` of the coordinator delivers: the value and `status.MPI_SOURCE`,
`status.MPI_TAG`. -/
structure Reply where
  eval : Int
  source : Nat
  tag : Nat

/-- Observable MPI events of the coordinator, in program order: `isend slot buffer dest tag`
is `MPI_Isend(&buffer[slot], ..., dest, tag, ...)`, `send dest tag` is the blocking
`MPI_Send` of the termination loop. -/
inductive CEv (B : Type) where
  | isend (slot : Nat) (buffer : B) (dest : Nat) (tag : Nat)
  | recv (eval : Int) (source : Nat) (tag : Nat)
  | send (dest : Nat) (tag : Nat)

/-- Contents of storage that the source reads without having written it: the initial
content of `eval_vector`, the cell behind `FirstLayerMoves` and the cell behind the opening
tables. -/
structure Stray where
  evalCell : Nat → Int
  moveCell : Move
  tableCell : Move

/-- The local variables of the coordinator together with the outstanding work. -/
structure Coord (B : Type) where
  board : B
  list : List Move
  DummyMove : Move
  FirstLayerMoves : List Move
  eval_vector : List Int
  k : Nat
  recieved_evals : Nat
  pending : List (Work B)
  log : List (CEv B)

/-- The answer `MPI_Recv(..., MPI_ANY_SOURCE, MPI_ANY_TAG, ...)` delivers: one of the
outstanding work items, selected by `choice`, is answered by its worker with the evaluation
`score tag buffer`, carrying the tag of the request. Without outstanding work the call
blocks forever (`none`). -/
def mpiRecv (score : Nat → B → Int) (choice : Nat) (pending : List (Work B)) :
    Option (Reply × List (Work B)) :=
  match pending[choice % pending.length]? with
  | none => none
  | some w => some (⟨score w.tag w.buffer, w.dest, w.tag⟩, pending.eraseIdx (choice % pending.length))

/-- The statements `FirstLayerMoves[k] = DummyMove; playMove; pack(buffer[slot]); takeBack;
MPI_Isend(&buffer[slot], ..., dest, k, ...); k++` shared by `player.cpp:204-210` and
`player.cpp:231-236`. -/
def sendWork (g : Game B) (slot dest : Nat) (st : Coord B) : Coord B :=
  let b1 := g.playMove st.board st.DummyMove
  { st with
    FirstLayerMoves := st.FirstLayerMoves.set st.k st.DummyMove
    board := g.takeBack b1
    log := st.log ++ [.isend slot b1 dest st.k]
    pending := st.pending ++ [⟨dest, st.k, b1⟩]
    k := st.k + 1 }

/-- The call `list.getNext(DummyMove)`: whether a move remained; the cursor advances. -/
def getNext (st : Coord B) : Bool × Coord B :=
  match st.list with
  | [] => (false, st)
  | m :: rest => (true, { st with DummyMove := m, list := rest })

/-- The dispatch loop `while (k < size - 1 && k < listLength)` (`player.cpp:201-211`); the
first argument bounds the number of iterations and is `listLength` at the call. -/
def dispatchLoop (g : Game B) (size listLength : Nat) : Nat → Coord B → Coord B
  | 0, st => st
  | fuel + 1, st =>
    if st.k < size - 1 ∧ st.k < listLength then
      let st1 := (getNext st).2
      dispatchLoop g size listLength fuel (sendWork g st1.k (st1.k + 1) st1)
    else st

/-- The statements `MPI_Recv(&eval, ...); eval_vector[status.MPI_TAG] = eval;
recieved_evals++` shared by `player.cpp:223-227` and `player.cpp:242-245`. -/
def recvEval (score : Nat → B → Int) (sched : Nat → Nat) (st : Coord B) :
    Option (Reply × Coord B) :=
  match mpiRecv score (sched st.recieved_evals) st.pending with
  | none => none
  | some (r, pending) =>
    some (r, { st with
      eval_vector := st.eval_vector.set r.tag r.eval
      recieved_evals := st.recieved_evals + 1
      pending := pending
      log := st.log ++ [.recv r.eval r.source r.tag] })

/-- The streaming loop `while (list.getNext(DummyMove))` (`player.cpp:220-237`); the first
argument bounds the number of iterations and is the number of remaining moves at the call. -/
def streamLoop (g : Game B) (score : Nat → B → Int) (sched : Nat → Nat) :
    Nat → Coord B → Option (Coord B)
  | 0, st => if (getNext st).1 then none else some (getNext st).2
  | fuel + 1, st =>
    if (getNext st).1 then
      match recvEval score sched (getNext st).2 with
      | none => none
      | some (r, st1) =>
        let sender_rank := r.source
        streamLoop g score sched fuel (sendWork g (sender_rank - 1) sender_rank st1)
    else some (getNext st).2

/-- The drain loop `while (recieved_evals < listLength)` (`player.cpp:240-246`); the first
argument bounds the number of iterations and is `listLength` at the call. -/
def drainLoop (score : Nat → B → Int) (sched : Nat → Nat) (listLength : Nat) :
    Nat → Coord B → Option (Coord B)
  | 0, st => if st.recieved_evals < listLength then none else some st
  | fuel + 1, st =>
    if st.recieved_evals < listLength then
      match recvEval score sched st with
      | none => none
      | some (_, st1) => drainLoop score sched listLength fuel st1
    else some st

/-- The termination loop `for (int i = 1; i < size; i++) MPI_Send(..., i, 1000, ...)`
(`player.cpp:249-253`). -/
def terminateWorkers (size : Nat) (st : Coord B) : Coord B :=
  { st with log := st.log ++ (List.range (size - 1)).map (fun i => CEv.send (i + 1) 1000) }

/-- The selection loop `for (int j = 0; j < listLength; j++)` (`player.cpp:256-265`),
returning `(bestEval, bestj)`. -/
def selectBest (eval_vector : List Int) (listLength : Nat) : Int × Nat :=
  (List.range listLength).foldl
    (fun (acc : Int × Nat) j =>
      if eval_vector.getD j 0 > acc.1 then (eval_vector.getD j 0, j) else acc)
    (-9999999, 0)

/-- The variables on entry of the search branch: `k = 0`, `FirstLayerMoves` and `DummyMove`
default-constructed, `eval_vector` not initialised, nothing sent. -/
def coordInit (g : Game B) (stray : Stray) (b : B) : Coord B :=
  { board := b
    list := g.generateMoves b
    DummyMove := noMove
    FirstLayerMoves := List.replicate (g.generateMoves b).length noMove
    eval_vector := (List.range (g.generateMoves b).length).map stray.evalCell
    k := 0
    recieved_evals := 0
    pending := []
    log := [] }

/-- The communication part of the search branch (`player.cpp:201-253`): dispatch,
streaming, drain, termination. `none` means that a receive blocks forever. -/
def coordinatorLoop (g : Game B) (score : Nat → B → Int) (sched : Nat → Nat) (size : Nat)
    (stray : Stray) (b : B) : Option (Coord B) :=
  let listLength := (g.generateMoves b).length
  let st1 := dispatchLoop g size listLength listLength (coordInit g stray b)
  match streamLoop g score sched st1.list.length st1 with
  | none => none
  | some st2 =>
    match drainLoop score sched listLength listLength st2 with
    | none => none
    | some st3 => some (terminateWorkers size st3)

/-- The move `m = FirstLayerMoves[bestj]` (`player.cpp:255-266`); a read behind the array
yields the stray cell. -/
def selectedMove (stray : Stray) (listLength : Nat) (st : Coord B) : Move :=
  st.FirstLayerMoves.getD (selectBest st.eval_vector listLength).2 stray.moveCell

/-- The search branch of the coordinator (`player.cpp:199-269`): the chosen move together
with the final variables. -/
def coordinatorSearch (g : Game B) (score : Nat → B → Int) (sched : Nat → Nat) (size : Nat)
    (stray : Stray) (b : B) : Option (Move × Coord B) :=
  match coordinatorLoop g score sched size stray b with
  | none => none
  | some st => some (selectedMove stray (g.generateMoves b).length st, st)

/-- The tags of the work dispatches (`MPI_Isend`) of a coordinator log, in order. -/
def isendTags : List (CEv B) → List Nat
  | [] => []
  | .isend _ _ _ tag :: rest => tag :: isendTags rest
  | _ :: rest => isendTags rest

/-- The number of evaluation replies received (`MPI_Recv`) in a coordinator log. -/
def recvCount : List (CEv B) → Nat
  | [] => 0
  | .recv _ _ _ :: rest => recvCount rest + 1
  | _ :: rest => recvCount rest

/-- The `(dest, tag)` pairs of the blocking sends (`MPI_Send`) of a coordinator log. -/
def sendDests : List (CEv B) → List (Nat × Nat)
  | [] => []
  | .send dest tag :: rest => (dest, tag) :: sendDests rest
  | _ :: rest => sendDests rest

/-- The boards the coordinator packs for the moves of a list, in order, starting from
board `b`: each move is played, the board packed, the move taken back. -/
def snapshots (g : Game B) : List Move → B → List B
  | [], _ => []
  | m :: list, b => g.playMove b m :: snapshots g list (g.takeBack (g.playMove b m))

/-- Invariant of the dispatch, streaming and drain loops for the request on board `b0`,
where `list` holds the generated moves that have not been sent yet: `list` and the board
are in step with `k`, every outstanding work item carries the board packed for its tag,
every dispatched tag without outstanding item has its evaluation in `eval_vector`,
`FirstLayerMoves` holds the first `k` generated moves, and the log holds the dispatches
`0 .. k - 1`, `recieved_evals` receives and no blocking send. -/
structure CoordInv (g : Game B) (score : Nat → B → Int) (b0 : B) (list : List Move)
    (st : Coord B) : Prop where
  k_le : st.k ≤ (g.generateMoves b0).length
  cursor : list = (g.generateMoves b0).drop st.k
  snaps : snapshots g list st.board = (snapshots g (g.generateMoves b0) b0).drop st.k
  pend : ∀ w ∈ st.pending,
    w.tag < st.k ∧ (snapshots g (g.generateMoves b0) b0)[w.tag]? = some w.buffer
  evals : ∀ t, t < st.k → (∀ w ∈ st.pending, w.tag ≠ t) →
    st.eval_vector[t]? = ((snapshots g (g.generateMoves b0) b0)[t]?).map (score t)
  ev_len : st.eval_vector.length = (g.generateMoves b0).length
  flm_len : st.FirstLayerMoves.length = (g.generateMoves b0).length
  flm : ∀ t, t < st.k → st.FirstLayerMoves[t]? = (g.generateMoves b0)[t]?
  count : st.pending.length + st.recieved_evals = st.k
  log_tags : isendTags st.log = List.range st.k
  log_recv : recvCount st.log = st.recieved_evals
  log_send : sendDests st.log = []

/-- What a scan of a coordinator log remembers: the ranks with a dispatched and not yet
answered work item, the ranks that were sent work so far, and the source of the receive
that was the event just before (if it was a receive). -/
structure Track where
  busy : List Nat
  started : List Nat
  last : Option Nat

/-- One step of the scan; `none` records a violation of the one-item-per-worker discipline:
a dispatch to a rank that still has an unanswered item, a dispatch whose buffer slot is not
`dest - 1`, a dispatch to a rank that had work before which does not directly follow the
receive of a reply from that rank, or a reply from a rank without unanswered item. -/
def trackStep (t : Option Track) (e : CEv B) : Option Track :=
  match t with
  | none => none
  | some t =>
    match e with
    | .isend slot _ dest _ =>
      if dest ∈ t.busy then none
      else if slot + 1 ≠ dest then none
      else if dest ∈ t.started ∧ t.last ≠ some dest then none
      else some ⟨t.busy ++ [dest], dest :: t.started, none⟩
    | .recv _ source _ =>
      if source ∈ t.busy then some ⟨t.busy.erase source, t.started, some source⟩ else none
    | .send _ _ => some ⟨t.busy, t.started, none⟩

/-- The scan of a whole log from the empty state; `some` means that the discipline held at
every point of the log. -/
def track (log : List (CEv B)) : Option Track :=
  log.foldl trackStep (some ⟨[], [], none⟩)

/-- The destinations of the work dispatches of a log lie in `1 .. size - 1` and each
dispatch uses the buffer slot `dest - 1`. -/
def slotsOk (size : Nat) : List (CEv B) → Bool
  | [] => true
  | .isend slot _ dest _ :: rest =>
    decide (slot + 1 = dest) && decide (dest ≤ size - 1) && slotsOk size rest
  | _ :: rest => slotsOk size rest

/-- Invariant of the coordinator loops for the discipline: the scan of the log succeeds
with state `t`, whose busy ranks are the destinations of the outstanding work items, are
pairwise different and lie in `1 .. size - 1`. -/
structure SlotInv (size : Nat) (st : Coord B) (t : Track) : Prop where
  run : track st.log = some t
  busy_eq : t.busy = st.pending.map (fun w => w.dest)
  nodup : t.busy.Nodup
  range : ∀ r ∈ t.busy, 1 ≤ r ∧ r ≤ size - 1
  slots : slotsOk size st.log = true

/-! ## The opening tables and the whole move request -/

/-- The two values `myColor` takes (`Board::color1` plays O, `Board::color2` plays X). -/
inductive Color where
  | color1
  | color2
  deriving DecidableEq, Repr

/-- Scripted move `move1X`: I9/LeftUp. -/
def move1X : Move := ⟨108, .LeftUp, .move3⟩
/-- Scripted move `move2X`: I7/LeftUp. -/
def move2X : Move := ⟨106, .LeftUp, .move3⟩
/-- Scripted move `move3X`: I8/LeftUp. -/
def move3X : Move := ⟨107, .LeftUp, .move3⟩
/-- Scripted move `move4X`: I6/LeftUp. -/
def move4X : Move := ⟨105, .LeftUp, .move2⟩
/-- Scripted move `move5X`: H7/LeftUp/Push. -/
def move5X : Move := ⟨95, .LeftUp, .push2⟩

/-- The table `openings_X[5]`. -/
def openings_X : List Move := [move1X, move2X, move3X, move4X, move5X]

/-- Scripted move `move1O`: A1/RightDown. -/
def move1O : Move := ⟨12, .RightDown, .move3⟩
/-- Scripted move `move2O`: A2/RightDown. -/
def move2O : Move := ⟨13, .RightDown, .move3⟩
/-- Scripted move `move3O`: A3/RightDown. -/
def move3O : Move := ⟨14, .RightDown, .move3⟩
/-- Scripted move `move4O`: B5/LeftDown. -/
def move4O : Move := ⟨27, .LeftDown, .move3⟩
/-- Scripted move `move5O`. -/
def move5O : Move := ⟨27, .RightDown, .right2⟩

/-- The table `openings_O[5]`. -/
def openings_O : List Move := [move1O, move2O, move3O, move4O, move5O]

/-- The scripted table of the engine colour: `openings_O` for O, `openings_X` for X. -/
def openings (myColor : Color) : List Move :=
  match myColor with
  | .color1 => openings_O
  | .color2 => openings_X

/-- The globals `opening` and `count_moves` (`player.cpp:59-60`). -/
structure Globals where
  opening : Bool
  count_moves : Nat
  deriving DecidableEq, Repr

/-- The globals at process start: `opening = true`, `count_moves = 0`. -/
def globalsInit : Globals := ⟨true, 0⟩

/-- Result of the opening block: the move `m`, the globals, and the table index that was
read (if the block ran). -/
structure OpeningRes where
  m : Move
  globals : Globals
  tableRead : Option Nat

/-- The block `if (opening) { ... }` (`player.cpp:178-194`). `isElement list m` is the call
`list.isElement(m, 0, false)` of the move list class, which is not part of `src/`; a read
behind the 5-element table yields the stray cell. -/
def openingStep (isElement : List Move → Move → Bool) (myColor : Color) (stray : Stray)
    (list : List Move) (m : Move) (gl : Globals) : OpeningRes :=
  if gl.opening then
    let m1 :=
      match myColor with
      | .color1 => openings_O.getD gl.count_moves stray.tableCell
      | .color2 => openings_X.getD gl.count_moves stray.tableCell
    let opening := if !isElement list m1 || decide (gl.count_moves >= 5) then false else gl.opening
    ⟨m1, ⟨opening, gl.count_moves + 1⟩, some gl.count_moves⟩
  else ⟨m, gl, none⟩

/-- What one move request leaves behind: the globals, the move `m`, the board, the MPI
events, whether the search branch ran, whether a move was drawn, the table index read. -/
structure Received (B : Type) where
  globals : Globals
  m : Move
  board : B
  mpi : List (CEv B)
  searched : Bool
  drawn : Bool
  tableRead : Option Nat

/-- The end of the request (`player.cpp:283-292`): "can not draw any move" and return when
`m.type == Move::none`, otherwise play `m`. -/
def drawMove (g : Game B) (gl : Globals) (m : Move) (b : B) (mpi : List (CEv B))
    (searched : Bool) (tableRead : Option Nat) : Received B :=
  if m.type = MoveType.none then
    ⟨gl, m, b, mpi, searched, false, tableRead⟩
  else
    ⟨gl, m, g.playMove b m, mpi, searched, true, tableRead⟩

/-- The branch `if (size > 1) { ... }` of `MyDomain::received` followed by the end of the
request (`player.cpp:163-270`, `283-292`). -/
def receivedCoordinator (g : Game B) (isElement : List Move → Move → Bool)
    (score : Nat → B → Int) (sched : Nat → Nat) (size : Nat) (myColor : Color)
    (stray : Stray) (gl : Globals) (b : B) : Option (Received B) :=
  let list := g.generateMoves b
  let o := openingStep isElement myColor stray list noMove gl
  if o.globals.opening then
    some (drawMove g o.globals o.m b [] false o.tableRead)
  else
    match coordinatorSearch g score sched size stray b with
    | none => none
    | some (m, st) => some (drawMove g o.globals m st.board st.log true o.tableRead)

/-- The branch `else { m = myBoard.bestMove(); }` followed by the end of the request
(`player.cpp:271-274`, `283-292`). -/
def receivedSingle (g : Game B) (maxDepth stale : Int) (gl : Globals) (b : B) : Received B :=
  let r := bestMove g maxDepth stale b
  drawMove g gl r.move r.board [] true none

/-- The globals after a sequence of move requests of the coordinator, given for each
request the move list of its position (`player.cpp:178-194` run once per request). -/
def openingRun (isElement : List Move → Move → Bool) (myColor : Color) (stray : Stray) :
    List (List Move) → Globals → Globals
  | [], gl => gl
  | list :: requests, gl =>
    openingRun isElement myColor stray requests
      (openingStep isElement myColor stray list noMove gl).globals

/-- The number of requests of a sequence that were answered with a scripted move. -/
def scriptedCount (isElement : List Move → Move → Bool) (myColor : Color) (stray : Stray) :
    List (List Move) → Globals → Nat
  | [], _ => 0
  | list :: requests, gl =>
    (if (openingStep isElement myColor stray list noMove gl).globals.opening then 1 else 0) +
      scriptedCount isElement myColor stray requests
        (openingStep isElement myColor stray list noMove gl).globals

/-! ## Small concrete games used to run the definitions -/

/-- The move number `i` of a path game. -/
def pathMove (i : Nat) : Move := ⟨i, .RightDown, .move3⟩

/-- A finite game tree: a board is the list of the move numbers played so far (latest
first), every board above `plies` moves has the moves `0 .. width - 1`, `takeBack` drops
the latest move. -/
def pathGame (width plies : Nat) (evaluate : List Int → Int) : Game (List Int) :=
  { generateMoves := fun b =>
      if b.length < plies then (List.range width).map pathMove else []
    playMove := fun b m => m.field :: b
    takeBack := List.tail
    evaluate := evaluate
    minEvaluation := -15000
    maxEvaluation := 15000 }

/-- Membership test comparing field and direction and ignoring the move kind. -/
def isElementSample (list : List Move) (m : Move) : Bool :=
  list.any (fun x => decide (x.field = m.field) && decide (x.direction = m.direction))

/-- Stray cells holding a move of kind `move3` and zero evaluations. -/
def straySample : Stray := ⟨fun _ => 0, ⟨7, .LeftUp, .move3⟩, ⟨7, .LeftUp, .move3⟩⟩

/-- Evaluation of the sample tree: boards below first move `0` score their number of
moves, all other boards score `0`. -/
def sampleEval (b : List Int) : Int :=
  if b.getLast? = some 0 then b.length else 0

/-- The sample tree: two moves per board, three plies deep. -/
def sampleGame : Game (List Int) := pathGame 2 3 sampleEval

/-- A sample worker: the search strategy with max depth 1 on the sample tree; boards with
two or more moves count as decided (not valid). -/
def sampleWorker : Worker (List Int) :=
  minmaxWorker sampleGame (fun b => decide (b.length < 2)) 1 0

/-- A sample tree in which the scripted move A1/RightDown is legal at the root: thirteen
moves per board. -/
def wideGame : Game (List Int) := pathGame 13 3 sampleEval

/-- Evaluation of the mirror tree: the board after first move `i` scores `i + 1`, the
boards after a reply to it score `-(i + 1)`. -/
def mirrorEval (b : List Int) : Int :=
  match b with
  | [i] => i + 1
  | [_, i] => -(i + 1)
  | _ => 0

/-- The mirror tree: two moves per board, two plies deep. -/
def mirrorGame : Game (List Int) := pathGame 2 2 mirrorEval

/-- The search strategy with max depth 0 on the mirror tree as worker. -/
def mirrorWorker : Worker (List Int) := minmaxWorker mirrorGame (fun _ => true) 0 0

/-- Evaluation of the bounded sample tree: boards whose latest move is `1` score `3`, other
boards below first move `0` score `5`, all remaining boards score `0`. -/
def tinyEval (b : List Int) : Int :=
  if b.head? = some 1 then 3 else if b.getLast? = some 0 then 5 else 0

/-- The bounded sample tree: two moves per board, three plies deep, evaluations between
`minEvaluation()` and `maxEvaluation()`. -/
def tinyGame : Game (List Int) := pathGame 2 3 tinyEval

/-- A sample tree whose evaluation function scores every board `-15000`, which is
`minEvaluation()` of the path games. -/
def flatGame : Game (List Int) := pathGame 2 3 (fun _ => -15000)

/-! # Theorems -/


/-! ## Search strategy: frame and log lemmas -/

theorem lastFound_append (l1 l2 : List SEv) :
    lastFound (l1 ++ l2) =
      match lastFound l2 with
      | some x => some x
      | none => lastFound l1 := by
  induction l1 with
  | nil => cases h : lastFound l2 <;> simp [lastFound, h]
  | cons e l1 ih =>
    cases e <;> simp [lastFound, ih]
    cases h : lastFound l2 <;> simp

theorem maxLoop_board (call : Move → B → Res B)
    (hcall : ∀ m b, (call m b).board = b) (list : List Move) (bestEval : Int) (b : B) :
    (maxLoop call list bestEval b).board = b := by
  induction list generalizing bestEval b with
  | nil => rfl
  | cons m list ih => simp [maxLoop, ih, hcall]

theorem minLoop_board (call : Move → B → Res B)
    (hcall : ∀ m b, (call m b).board = b) (list : List Move) (bestEval : Int) (b : B) :
    (minLoop call list bestEval b).board = b := by
  induction list generalizing bestEval b with
  | nil => rfl
  | cons m list ih => simp [minLoop, ih, hcall]

theorem minimax_evalAux_board (g : Game B) (hundo : ∀ b m, g.takeBack (g.playMove b m) = b)
    (maxDepth : Int) (n : Nat) (depth : Int) (m : Move) (b : B) :
    (minimax_evalAux g maxDepth n depth m b).board = b := by
  induction n generalizing depth m b with
  | zero => simp [minimax_evalAux, leafEval, hundo]
  | succ n ih =>
    simp only [minimax_evalAux]
    split
    · simp [leafEval, hundo]
    · split
      · simp [maxLoop_board _ (fun m b => ih (depth + 1) m b), hundo]
      · simp [minLoop_board _ (fun m b => ih (depth + 1) m b), hundo]

theorem minimax_eval_board (g : Game B) (hundo : ∀ b m, g.takeBack (g.playMove b m) = b)
    (maxDepth depth : Int) (m : Move) (b : B) :
    (minimax_eval g maxDepth depth m b).board = b :=
  minimax_evalAux_board g hundo maxDepth _ depth m b

theorem maxLoop_lastFound (call : Move → B → Res B)
    (hcall : ∀ m b, lastFound (call m b).log = none) (list : List Move) (bestEval : Int)
    (b : B) : lastFound (maxLoop call list bestEval b).log = none := by
  induction list generalizing bestEval b with
  | nil => rfl
  | cons m list ih => simp [maxLoop, lastFound_append, ih, hcall]

theorem minLoop_lastFound (call : Move → B → Res B)
    (hcall : ∀ m b, lastFound (call m b).log = none) (list : List Move) (bestEval : Int)
    (b : B) : lastFound (minLoop call list bestEval b).log = none := by
  induction list generalizing bestEval b with
  | nil => rfl
  | cons m list ih => simp [minLoop, lastFound_append, ih, hcall]

theorem minimax_evalAux_lastFound (g : Game B) (maxDepth : Int) (n : Nat) (depth : Int)
    (m : Move) (b : B) : lastFound (minimax_evalAux g maxDepth n depth m b).log = none := by
  induction n generalizing depth m b with
  | zero => simp [minimax_evalAux, leafEval, lastFound]
  | succ n ih =>
    simp only [minimax_evalAux]
    split
    · simp [leafEval, lastFound]
    · split
      · simp [lastFound_append, lastFound, maxLoop_lastFound _ (fun m b => ih (depth + 1) m b)]
      · simp [lastFound_append, lastFound, minLoop_lastFound _ (fun m b => ih (depth + 1) m b)]

theorem minimax_eval_lastFound (g : Game B) (maxDepth depth : Int) (m : Move) (b : B) :
    lastFound (minimax_eval g maxDepth depth m b).log = none :=
  minimax_evalAux_lastFound g maxDepth _ depth m b



theorem searchLoop_board (g : Game B) (hundo : ∀ b m, g.takeBack (g.playMove b m) = b)
    (maxDepth : Int) (list : List Move) (bestEval : Int) (b : B) :
    (searchLoop g maxDepth list bestEval b).board = b := by
  induction list generalizing bestEval with
  | nil => rfl
  | cons m list ih =>
    simp only [searchLoop]
    split <;> simp [minimax_eval_board g hundo, ih]

theorem searchLoop_none (g : Game B) (hundo : ∀ b m, g.takeBack (g.playMove b m) = b)
    (maxDepth : Int) (list : List Move) (bestEval : Int) (b : B)
    (hle : ∀ m ∈ list, (minimax_eval g maxDepth 0 m b).eval ≤ bestEval) :
    lastFound (searchLoop g maxDepth list bestEval b).log = none ∧
      (searchLoop g maxDepth list bestEval b).eval = bestEval := by
  induction list generalizing bestEval with
  | nil => exact ⟨rfl, rfl⟩
  | cons m list ih =>
    have hm := hle m (List.mem_cons_self _ _)
    have hrest := ih bestEval (fun x hx => hle x (List.mem_cons_of_mem _ hx))
    simp only [searchLoop]
    rw [if_neg (by omega)]
    simp [lastFound_append, minimax_eval_board g hundo, minimax_eval_lastFound, hrest]

theorem searchLoop_some (g : Game B) (hundo : ∀ b m, g.takeBack (g.playMove b m) = b)
    (maxDepth : Int) (list : List Move) (bestEval : Int) (b : B)
    (hgt : ∃ m ∈ list, bestEval < (minimax_eval g maxDepth 0 m b).eval) :
    ∃ j mj, list[j]? = some mj ∧
      lastFound (searchLoop g maxDepth list bestEval b).log =
        some (mj, (minimax_eval g maxDepth 0 mj b).eval) ∧
      (searchLoop g maxDepth list bestEval b).eval = (minimax_eval g maxDepth 0 mj b).eval ∧
      bestEval < (minimax_eval g maxDepth 0 mj b).eval ∧
      (∀ m ∈ list, (minimax_eval g maxDepth 0 m b).eval ≤ (minimax_eval g maxDepth 0 mj b).eval) ∧
      (∀ (i : Nat) (mi : Move), i < j → list[i]? = some mi →
        (minimax_eval g maxDepth 0 mi b).eval < (minimax_eval g maxDepth 0 mj b).eval) := by
  induction list generalizing bestEval with
  | nil => simp at hgt
  | cons m list ih =>
    simp only [searchLoop, minimax_eval_board g hundo]
    by_cases hm : (minimax_eval g maxDepth 0 m b).eval > bestEval
    · rw [if_pos hm]
      by_cases hrest : ∃ x ∈ list, (minimax_eval g maxDepth 0 m b).eval <
          (minimax_eval g maxDepth 0 x b).eval
      · obtain ⟨j, mj, hj, hfound, heval, hlt, hmax, hfirst⟩ := ih _ hrest
        refine ⟨j + 1, mj, by simpa using hj, ?_, heval, by omega, ?_, ?_⟩
        · simp [lastFound_append, lastFound, hfound]
        · intro x hx
          rcases List.mem_cons.1 hx with rfl | hx
          · omega
          · exact hmax x hx
        · intro i mi hi hmi
          cases i with
          | zero => simp at hmi; subst hmi; exact hlt
          | succ i => exact hfirst i mi (by omega) (by simpa using hmi)
      · have hle : ∀ x ∈ list, (minimax_eval g maxDepth 0 x b).eval ≤
            (minimax_eval g maxDepth 0 m b).eval := by
          intro x hx
          by_contra hc
          exact hrest ⟨x, hx, by omega⟩
        obtain ⟨hnone, heval⟩ := searchLoop_none g hundo maxDepth list _ b hle
        refine ⟨0, m, by simp, ?_, heval, hm, ?_, ?_⟩
        · simp [lastFound_append, hnone, lastFound, minimax_eval_lastFound]
        · intro x hx
          rcases List.mem_cons.1 hx with rfl | hx
          · exact le_refl _
          · exact hle x hx
        · intro i mi hi; omega
    · rw [if_neg hm]
      have hrest : ∃ x ∈ list, bestEval < (minimax_eval g maxDepth 0 x b).eval := by
        obtain ⟨x, hx, hxgt⟩ := hgt
        rcases List.mem_cons.1 hx with rfl | hx
        · exact absurd hxgt hm
        · exact ⟨x, hx, hxgt⟩
      obtain ⟨j, mj, hj, hfound, heval, hlt, hmax, hfirst⟩ := ih _ hrest
      refine ⟨j + 1, mj, by simpa using hj, ?_, heval, hlt, ?_, ?_⟩
      · simp [lastFound_append, hfound]
      · intro x hx
        rcases List.mem_cons.1 hx with rfl | hx
        · omega
        · exact hmax x hx
      · intro i mi hi hmi
        cases i with
        | zero => simp at hmi; subst hmi; omega
        | succ i => exact hfirst i mi (by omega) (by simpa using hmi)

theorem minimax_eval_leaf (g : Game B) (maxDepth depth : Int) (m : Move) (b : B)
    (h : depth >= maxDepth) : minimax_eval g maxDepth depth m b = leafEval g depth m b := by
  have h0 : (maxDepth - depth).toNat = 0 := by omega
  simp [minimax_eval, h0, minimax_evalAux]

theorem minimax_eval_unfold (g : Game B) (maxDepth depth : Int) (m : Move) (b : B) :
    minimax_eval g maxDepth depth m b =
      if depth >= maxDepth then
        leafEval g depth m b
      else if Int.tmod depth 2 = 1 then
        let r := maxLoop (minimax_eval g maxDepth (depth + 1)) (g.generateMoves (g.playMove b m))
          g.minEvaluation (g.playMove b m)
        ⟨r.eval, g.takeBack r.board,
          [.enter depth, .play m] ++ r.log ++ [.back, .finishedNode depth]⟩
      else
        let r := minLoop (minimax_eval g maxDepth (depth + 1)) (g.generateMoves (g.playMove b m))
          g.maxEvaluation (g.playMove b m)
        ⟨r.eval, g.takeBack r.board,
          [.enter depth, .play m] ++ r.log ++ [.back, .finishedNode depth]⟩ := by
  by_cases h : depth >= maxDepth
  · rw [if_pos h]; exact minimax_eval_leaf g maxDepth depth m b h
  · rw [if_neg h]
    have h1 : (maxDepth - depth).toNat = (maxDepth - (depth + 1)).toNat + 1 := by omega
    have h2 : minimax_eval g maxDepth (depth + 1) =
        minimax_evalAux g maxDepth (maxDepth - (depth + 1)).toNat (depth + 1) := by
      funext m b; rfl
    simp only [minimax_eval, h1, minimax_evalAux, if_neg h]
    rw [h2]

/-- The search reports as best move (last `foundBestMove` call) the first move of the
generated list whose `minimax_eval(0, ·)` is the maximum over the list, together with that
maximum, provided the list is not empty and every such evaluation exceeds
`minEvaluation()`; moves before it are strictly lower, no move is higher. -/
theorem searchBestMove_lastFound (g : Game B)
    (hundo : ∀ b m, g.takeBack (g.playMove b m) = b) (maxDepth : Int) (b : B)
    (hN : 1 ≤ (g.generateMoves b).length)
    (hpre : ∀ m ∈ g.generateMoves b, g.minEvaluation < (minimax_eval g maxDepth 0 m b).eval) :
    ∃ j mj, (g.generateMoves b)[j]? = some mj ∧
      lastFound (searchBestMove g maxDepth b).log =
        some (mj, (minimax_eval g maxDepth 0 mj b).eval) ∧
      (∀ m ∈ g.generateMoves b,
        (minimax_eval g maxDepth 0 m b).eval ≤ (minimax_eval g maxDepth 0 mj b).eval) ∧
      (∀ (i : Nat) (mi : Move), i < j → (g.generateMoves b)[i]? = some mi →
        (minimax_eval g maxDepth 0 mi b).eval < (minimax_eval g maxDepth 0 mj b).eval) := by
  have hex : ∃ m ∈ g.generateMoves b,
      g.minEvaluation < (minimax_eval g maxDepth 0 m b).eval := by
    cases hl : g.generateMoves b with
    | nil => simp [hl] at hN
    | cons m rest => exact ⟨m, List.mem_cons_self _ _, hpre m (by simp [hl])⟩
  obtain ⟨j, mj, hj, hfound, _, _, hmax, hfirst⟩ :=
    searchLoop_some g hundo maxDepth _ _ b hex
  refine ⟨j, mj, hj, ?_, hmax, hfirst⟩
  simp [searchBestMove, lastFound_append, lastFound, hfound]


/-! ## C11: recursive characterisation of `minimax_eval` -/

theorem maxLoop_eval (call : Move → B → Res B) (hcall : ∀ m b, (call m b).board = b)
    (list : List Move) (bestEval : Int) (b : B) :
    ((maxLoop call list bestEval b).eval = bestEval ∨
        ∃ c ∈ list, (maxLoop call list bestEval b).eval = (call c b).eval) ∧
      bestEval ≤ (maxLoop call list bestEval b).eval ∧
      ∀ c ∈ list, (call c b).eval ≤ (maxLoop call list bestEval b).eval := by
  induction list generalizing bestEval with
  | nil => simp [maxLoop]
  | cons m list ih =>
    simp only [maxLoop, hcall]
    by_cases hgt : (call m b).eval > bestEval
    · rw [if_pos hgt]
      obtain ⟨h1, h2, h3⟩ := ih (call m b).eval
      refine ⟨?_, by omega, ?_⟩
      · rcases h1 with h1 | ⟨c, hc, h1⟩
        · exact Or.inr ⟨m, List.mem_cons_self _ _, h1⟩
        · exact Or.inr ⟨c, List.mem_cons_of_mem _ hc, h1⟩
      · intro c hc
        rcases List.mem_cons.1 hc with rfl | hc
        · exact h2
        · exact h3 c hc
    · rw [if_neg hgt]
      obtain ⟨h1, h2, h3⟩ := ih bestEval
      refine ⟨?_, h2, ?_⟩
      · rcases h1 with h1 | ⟨c, hc, h1⟩
        · exact Or.inl h1
        · exact Or.inr ⟨c, List.mem_cons_of_mem _ hc, h1⟩
      · intro c hc
        rcases List.mem_cons.1 hc with rfl | hc
        · omega
        · exact h3 c hc

theorem minLoop_eval (call : Move → B → Res B) (hcall : ∀ m b, (call m b).board = b)
    (list : List Move) (bestEval : Int) (b : B) :
    ((minLoop call list bestEval b).eval = bestEval ∨
        ∃ c ∈ list, (minLoop call list bestEval b).eval = (call c b).eval) ∧
      (minLoop call list bestEval b).eval ≤ bestEval ∧
      ∀ c ∈ list, (minLoop call list bestEval b).eval ≤ (call c b).eval := by
  induction list generalizing bestEval with
  | nil => simp [minLoop]
  | cons m list ih =>
    simp only [minLoop, hcall]
    by_cases hlt : (call m b).eval < bestEval
    · rw [if_pos hlt]
      obtain ⟨h1, h2, h3⟩ := ih (call m b).eval
      refine ⟨?_, by omega, ?_⟩
      · rcases h1 with h1 | ⟨c, hc, h1⟩
        · exact Or.inr ⟨m, List.mem_cons_self _ _, h1⟩
        · exact Or.inr ⟨c, List.mem_cons_of_mem _ hc, h1⟩
      · intro c hc
        rcases List.mem_cons.1 hc with rfl | hc
        · exact h2
        · exact h3 c hc
    · rw [if_neg hlt]
      obtain ⟨h1, h2, h3⟩ := ih bestEval
      refine ⟨?_, h2, ?_⟩
      · rcases h1 with h1 | ⟨c, hc, h1⟩
        · exact Or.inl h1
        · exact Or.inr ⟨c, List.mem_cons_of_mem _ hc, h1⟩
      · intro c hc
        rcases List.mem_cons.1 hc with rfl | hc
        · omega
        · exact h3 c hc

/-! ## Counting the events of a search -/

theorem playCount_append (l1 l2 : List SEv) :
    playCount (l1 ++ l2) = playCount l1 + playCount l2 := by
  induction l1 with
  | nil => simp [playCount]
  | cons e l1 ih => cases e <;> simp [playCount, ih, Nat.add_right_comm]

theorem enterCount_append (l1 l2 : List SEv) :
    enterCount (l1 ++ l2) = enterCount l1 + enterCount l2 := by
  induction l1 with
  | nil => simp [enterCount]
  | cons e l1 ih => cases e <;> simp [enterCount, ih, Nat.add_right_comm]

theorem backCount_append (l1 l2 : List SEv) :
    backCount (l1 ++ l2) = backCount l1 + backCount l2 := by
  induction l1 with
  | nil => simp [backCount]
  | cons e l1 ih => cases e <;> simp [backCount, ih, Nat.add_right_comm]

theorem maxLoop_counts (call : Move → B → Res B)
    (hcall : ∀ m b, playCount (call m b).log = enterCount (call m b).log ∧
      backCount (call m b).log = enterCount (call m b).log)
    (list : List Move) (bestEval : Int) (b : B) :
    playCount (maxLoop call list bestEval b).log = enterCount (maxLoop call list bestEval b).log ∧
      backCount (maxLoop call list bestEval b).log =
        enterCount (maxLoop call list bestEval b).log := by
  induction list generalizing bestEval b with
  | nil => exact ⟨rfl, rfl⟩
  | cons m list ih =>
    simp only [maxLoop, playCount_append, enterCount_append, backCount_append]
    have h1 := hcall m b
    have h2 := ih (if (call m b).eval > bestEval then (call m b).eval else bestEval)
      (call m b).board
    omega

theorem minLoop_counts (call : Move → B → Res B)
    (hcall : ∀ m b, playCount (call m b).log = enterCount (call m b).log ∧
      backCount (call m b).log = enterCount (call m b).log)
    (list : List Move) (bestEval : Int) (b : B) :
    playCount (minLoop call list bestEval b).log = enterCount (minLoop call list bestEval b).log ∧
      backCount (minLoop call list bestEval b).log =
        enterCount (minLoop call list bestEval b).log := by
  induction list generalizing bestEval b with
  | nil => exact ⟨rfl, rfl⟩
  | cons m list ih =>
    simp only [minLoop, playCount_append, enterCount_append, backCount_append]
    have h1 := hcall m b
    have h2 := ih (if (call m b).eval < bestEval then (call m b).eval else bestEval)
      (call m b).board
    omega

theorem minimax_evalAux_counts (g : Game B) (maxDepth : Int) (n : Nat) (depth : Int)
    (m : Move) (b : B) :
    playCount (minimax_evalAux g maxDepth n depth m b).log =
        enterCount (minimax_evalAux g maxDepth n depth m b).log ∧
      backCount (minimax_evalAux g maxDepth n depth m b).log =
        enterCount (minimax_evalAux g maxDepth n depth m b).log := by
  induction n generalizing depth m b with
  | zero => simp [minimax_evalAux, leafEval, playCount, enterCount, backCount]
  | succ n ih =>
    simp only [minimax_evalAux]
    split
    · simp [leafEval, playCount, enterCount, backCount]
    · split
      · have := maxLoop_counts (minimax_evalAux g maxDepth n (depth + 1)) (ih (depth + 1))
          (g.generateMoves (g.playMove b m)) g.minEvaluation (g.playMove b m)
        simp [playCount_append, enterCount_append, backCount_append, playCount,
          enterCount, backCount]
        omega
      · have := minLoop_counts (minimax_evalAux g maxDepth n (depth + 1)) (ih (depth + 1))
          (g.generateMoves (g.playMove b m)) g.maxEvaluation (g.playMove b m)
        simp [playCount_append, enterCount_append, backCount_append, playCount,
          enterCount, backCount]
        omega

theorem minimax_eval_counts (g : Game B) (maxDepth depth : Int) (m : Move) (b : B) :
    playCount (minimax_eval g maxDepth depth m b).log =
        enterCount (minimax_eval g maxDepth depth m b).log ∧
      backCount (minimax_eval g maxDepth depth m b).log =
        enterCount (minimax_eval g maxDepth depth m b).log :=
  minimax_evalAux_counts g maxDepth _ depth m b

theorem searchLoop_counts (g : Game B) (maxDepth : Int) (list : List Move) (bestEval : Int)
    (b : B) :
    playCount (searchLoop g maxDepth list bestEval b).log =
        enterCount (searchLoop g maxDepth list bestEval b).log ∧
      backCount (searchLoop g maxDepth list bestEval b).log =
        enterCount (searchLoop g maxDepth list bestEval b).log := by
  induction list generalizing bestEval b with
  | nil => exact ⟨rfl, rfl⟩
  | cons m list ih =>
    have h1 := minimax_eval_counts g maxDepth 0 m b
    simp only [searchLoop]
    split
    · have h2 := ih (minimax_eval g maxDepth 0 m b).eval (minimax_eval g maxDepth 0 m b).board
      simp [playCount_append, enterCount_append, backCount_append, playCount,
        enterCount, backCount]
      omega
    · have h2 := ih bestEval (minimax_eval g maxDepth 0 m b).board
      simp only [playCount_append, enterCount_append, backCount_append]
      omega

/-! ## The depth of the evaluated positions -/

theorem height_append (l1 l2 : List SEv) (h : Nat) :
    height (l1 ++ l2) h = height l2 (height l1 h) := by
  induction l1 generalizing h with
  | nil => rfl
  | cons e l1 ih => cases e <;> simp [height, ih]

theorem evalDepths_append (l1 l2 : List SEv) (h : Nat) :
    evalDepths (l1 ++ l2) h = evalDepths l1 h ++ evalDepths l2 (height l1 h) := by
  induction l1 generalizing h with
  | nil => rfl
  | cons e l1 ih => cases e <;> simp [evalDepths, height, ih]

theorem maxLoop_evalDepths (call : Move → B → Res B) (c : Nat)
    (hcall : ∀ m b h, height (call m b).log h = h ∧
      ∀ x ∈ evalDepths (call m b).log h, x = h + c)
    (list : List Move) (bestEval : Int) (b : B) (h : Nat) :
    height (maxLoop call list bestEval b).log h = h ∧
      ∀ x ∈ evalDepths (maxLoop call list bestEval b).log h, x = h + c := by
  induction list generalizing bestEval b with
  | nil => simp [maxLoop, height, evalDepths]
  | cons m list ih =>
    simp only [maxLoop, height_append, evalDepths_append, (hcall m b h).1]
    obtain ⟨h1, h2⟩ := ih (if (call m b).eval > bestEval then (call m b).eval else bestEval)
      (call m b).board
    refine ⟨h1, ?_⟩
    intro x hx
    rcases List.mem_append.1 hx with hx | hx
    · exact (hcall m b h).2 x hx
    · exact h2 x hx

theorem minLoop_evalDepths (call : Move → B → Res B) (c : Nat)
    (hcall : ∀ m b h, height (call m b).log h = h ∧
      ∀ x ∈ evalDepths (call m b).log h, x = h + c)
    (list : List Move) (bestEval : Int) (b : B) (h : Nat) :
    height (minLoop call list bestEval b).log h = h ∧
      ∀ x ∈ evalDepths (minLoop call list bestEval b).log h, x = h + c := by
  induction list generalizing bestEval b with
  | nil => simp [minLoop, height, evalDepths]
  | cons m list ih =>
    simp only [minLoop, height_append, evalDepths_append, (hcall m b h).1]
    obtain ⟨h1, h2⟩ := ih (if (call m b).eval < bestEval then (call m b).eval else bestEval)
      (call m b).board
    refine ⟨h1, ?_⟩
    intro x hx
    rcases List.mem_append.1 hx with hx | hx
    · exact (hcall m b h).2 x hx
    · exact h2 x hx

theorem node_evalDepths (d : Int) (m : Move) (inner : List SEv) (h c : Nat)
    (h1 : height inner (h + 1) = h + 1)
    (h2 : ∀ x ∈ evalDepths inner (h + 1), x = h + 1 + c) :
    height ([.enter d, .play m] ++ inner ++ [.back, .finishedNode d]) h = h ∧
      ∀ x ∈ evalDepths ([.enter d, .play m] ++ inner ++ [.back, .finishedNode d]) h,
        x = h + (1 + c) := by
  have e1 : height ([SEv.enter d, SEv.play m] ++ inner) h = h + 1 := by
    rw [height_append]
    simpa [height] using h1
  have e2 : evalDepths ([SEv.enter d, SEv.play m] ++ inner) h = evalDepths inner (h + 1) := by
    rw [evalDepths_append]
    simp [height, evalDepths]
  constructor
  · rw [height_append, e1]
    simp [height]
  · intro x hx
    rw [evalDepths_append, e1, e2] at hx
    simp only [evalDepths, List.append_nil] at hx
    rw [h2 x hx]
    omega

theorem minimax_evalAux_evalDepths (g : Game B) (maxDepth : Int) (n : Nat) (depth : Int)
    (m : Move) (b : B) (h : Nat) :
    height (minimax_evalAux g maxDepth n depth m b).log h = h ∧
      ∀ x ∈ evalDepths (minimax_evalAux g maxDepth n depth m b).log h,
        x = h + (min n (maxDepth - depth).toNat + 1) := by
  induction n generalizing depth m b h with
  | zero => simp [minimax_evalAux, leafEval, height, evalDepths]
  | succ n ih =>
    simp only [minimax_evalAux]
    split
    · rename_i hge
      have h0 : (maxDepth - depth).toNat = 0 := by omega
      simp [leafEval, height, evalDepths, h0]
    · rename_i hlt
      have hc : min (n + 1) (maxDepth - depth).toNat + 1 =
          1 + (min n (maxDepth - (depth + 1)).toNat + 1) := by omega
      rw [hc]
      split
      · obtain ⟨h1, h2⟩ := maxLoop_evalDepths (minimax_evalAux g maxDepth n (depth + 1))
          (min n (maxDepth - (depth + 1)).toNat + 1) (ih (depth + 1))
          (g.generateMoves (g.playMove b m)) g.minEvaluation (g.playMove b m) (h + 1)
        exact node_evalDepths depth m _ h _ h1 h2
      · obtain ⟨h1, h2⟩ := minLoop_evalDepths (minimax_evalAux g maxDepth n (depth + 1))
          (min n (maxDepth - (depth + 1)).toNat + 1) (ih (depth + 1))
          (g.generateMoves (g.playMove b m)) g.maxEvaluation (g.playMove b m) (h + 1)
        exact node_evalDepths depth m _ h _ h1 h2

theorem minimax_eval_evalDepths (g : Game B) (maxDepth depth : Int) (m : Move) (b : B)
    (h : Nat) :
    height (minimax_eval g maxDepth depth m b).log h = h ∧
      ∀ x ∈ evalDepths (minimax_eval g maxDepth depth m b).log h,
        x = h + ((maxDepth - depth).toNat + 1) := by
  have := minimax_evalAux_evalDepths g maxDepth (maxDepth - depth).toNat depth m b h
  simpa [minimax_eval] using this

theorem searchLoop_evalDepths (g : Game B) (maxDepth : Int) (list : List Move)
    (bestEval : Int) (b : B) (h : Nat) :
    height (searchLoop g maxDepth list bestEval b).log h = h ∧
      ∀ x ∈ evalDepths (searchLoop g maxDepth list bestEval b).log h,
        x = h + (maxDepth.toNat + 1) := by
  induction list generalizing bestEval b with
  | nil => simp [searchLoop, height, evalDepths]
  | cons m list ih =>
    obtain ⟨h1, h2⟩ := minimax_eval_evalDepths g maxDepth 0 m b h
    simp only [Int.sub_zero] at h2
    simp only [searchLoop]
    split
    · obtain ⟨h3, h4⟩ := ih (minimax_eval g maxDepth 0 m b).eval
        (minimax_eval g maxDepth 0 m b).board
      simp only [height_append, evalDepths_append, h1, height, evalDepths, List.nil_append]
      refine ⟨h3, ?_⟩
      intro x hx
      rcases List.mem_append.1 hx with hx | hx
      · rcases List.mem_append.1 hx with hx | hx
        · exact h2 x hx
        · simp at hx
      · exact h4 x hx
    · obtain ⟨h3, h4⟩ := ih bestEval (minimax_eval g maxDepth 0 m b).board
      simp only [height_append, evalDepths_append, h1]
      refine ⟨h3, ?_⟩
      intro x hx
      rcases List.mem_append.1 hx with hx | hx
      · exact h2 x hx
      · exact h4 x hx

/-! ## Termination: the recursion within its nesting bound -/

theorem maxLoopFuel_some (call : Move → B → Res B) (list : List Move) (bestEval : Int)
    (b : B) :
    maxLoopFuel (fun m b => some (call m b)) list bestEval b =
      some (maxLoop call list bestEval b) := by
  induction list generalizing bestEval b with
  | nil => rfl
  | cons m list ih => simp [maxLoopFuel, maxLoop, ih]

theorem minLoopFuel_some (call : Move → B → Res B) (list : List Move) (bestEval : Int)
    (b : B) :
    minLoopFuel (fun m b => some (call m b)) list bestEval b =
      some (minLoop call list bestEval b) := by
  induction list generalizing bestEval b with
  | nil => rfl
  | cons m list ih => simp [minLoopFuel, minLoop, ih]

/-- With more than `max 0 (maxDepth - depth)` activations allowed, the recursion returns,
and returns the value of `minimax_eval`. -/
theorem minimax_evalFuel_some (g : Game B) (maxDepth : Int) (fuel : Nat) (depth : Int)
    (m : Move) (b : B) (hfuel : (maxDepth - depth).toNat < fuel) :
    minimax_evalFuel g maxDepth fuel depth m b = some (minimax_eval g maxDepth depth m b) := by
  induction fuel generalizing depth m b with
  | zero => omega
  | succ fuel ih =>
    rw [minimax_eval_unfold]
    simp only [minimax_evalFuel]
    split
    · rfl
    · rename_i hlt
      have hrec : minimax_evalFuel g maxDepth fuel (depth + 1) =
          fun c b => some (minimax_eval g maxDepth (depth + 1) c b) := by
        funext c b1
        exact ih (depth + 1) c b1 (by omega)
      split
      · rw [hrec, maxLoopFuel_some]
      · rw [hrec, minLoopFuel_some]

theorem searchLoopFuel_some (g : Game B) (maxDepth : Int) (fuel : Nat) (list : List Move)
    (bestEval : Int) (b : B) (hfuel : maxDepth.toNat < fuel) :
    searchLoopFuel g maxDepth fuel list bestEval b =
      some (searchLoop g maxDepth list bestEval b) := by
  induction list generalizing bestEval b with
  | nil => rfl
  | cons m list ih =>
    have hcall := minimax_evalFuel_some g maxDepth fuel 0 m b (by simpa using hfuel)
    simp only [searchLoopFuel, searchLoop, hcall]
    split <;> simp [ih]

/-- With too few activations allowed and a move to recurse into, the bound is hit. -/
theorem minimax_evalFuel_none (g : Game B) (maxDepth : Int) (fuel : Nat) (depth : Int)
    (m : Move) (b : B) (hmoves : ∀ b, g.generateMoves b ≠ [])
    (hfuel : fuel ≤ (maxDepth - depth).toNat) :
    minimax_evalFuel g maxDepth fuel depth m b = none := by
  induction fuel generalizing depth m b with
  | zero => rfl
  | succ fuel ih =>
    have hlt : ¬ depth >= maxDepth := by omega
    simp only [minimax_evalFuel, if_neg hlt]
    obtain ⟨c, rest, hl⟩ : ∃ c rest, g.generateMoves (g.playMove b m) = c :: rest := by
      cases hx : g.generateMoves (g.playMove b m) with
      | nil => exact absurd hx (hmoves _)
      | cons c rest => exact ⟨c, rest, rfl⟩
    have hc : minimax_evalFuel g maxDepth fuel (depth + 1) c (g.playMove b m) = none :=
      ih (depth + 1) c (g.playMove b m) (by omega)
    split <;> simp [hl, maxLoopFuel, minLoopFuel, hc]

/-! ## C1: tie-breaking of `searchBestMove` -/

/-- C1: `searchBestMove` reports as best move (last `foundBestMove` call) the first move of the
generated list whose `minimax_eval(0, ·)` is the maximum over the list, together with that
maximum, provided the list is not empty and every such evaluation exceeds
`minEvaluation()`; moves before it are strictly lower, no move is higher. -/
theorem searchBestMove_first_maximum (g : Game B)
    (hundo : ∀ b m, g.takeBack (g.playMove b m) = b) (maxDepth : Int) (b : B)
    (hN : 1 ≤ (g.generateMoves b).length)
    (hpre : ∀ m ∈ g.generateMoves b, g.minEvaluation < (minimax_eval g maxDepth 0 m b).eval) :
    ∃ j mj, (g.generateMoves b)[j]? = some mj ∧
      lastFound (searchBestMove g maxDepth b).log =
        some (mj, (minimax_eval g maxDepth 0 mj b).eval) ∧
      (∀ m ∈ g.generateMoves b,
        (minimax_eval g maxDepth 0 m b).eval ≤ (minimax_eval g maxDepth 0 mj b).eval) ∧
      (∀ (i : Nat) (mi : Move), i < j → (g.generateMoves b)[i]? = some mi →
        (minimax_eval g maxDepth 0 mi b).eval < (minimax_eval g maxDepth 0 mj b).eval) :=
  searchBestMove_lastFound g hundo maxDepth b hN hpre

theorem searchBestMove_first_maximum_witness :
    ((∀ b m, sampleGame.takeBack (sampleGame.playMove b m) = b) ∧
      1 ≤ (sampleGame.generateMoves []).length ∧
      (∀ m ∈ sampleGame.generateMoves [],
        sampleGame.minEvaluation < (minimax_eval sampleGame 1 0 m []).eval) ∧
      lastFound (searchBestMove sampleGame 1 []).log = some (pathMove 0, 2)) ∧
    ∃ j mj, (sampleGame.generateMoves [])[j]? = some mj ∧
      lastFound (searchBestMove sampleGame 1 []).log =
        some (mj, (minimax_eval sampleGame 1 0 mj []).eval) ∧
      (∀ m ∈ sampleGame.generateMoves [],
        (minimax_eval sampleGame 1 0 m []).eval ≤ (minimax_eval sampleGame 1 0 mj []).eval) ∧
      (∀ (i : Nat) (mi : Move), i < j → (sampleGame.generateMoves [])[i]? = some mi →
        (minimax_eval sampleGame 1 0 mi []).eval < (minimax_eval sampleGame 1 0 mj []).eval) :=
  ⟨⟨fun _ _ => rfl, by decide, by decide, by decide⟩,
    searchBestMove_first_maximum sampleGame (fun _ _ => rfl) 1 [] (by decide) (by decide)⟩

/-! ## C5: the depth limit -/

/-- C5 (as stated, refuted): with max depth 1 the value of `minimax_eval(0, m)` for the first
move `0` of the sample tree is `2`, the minimum over the replies, while the raw evaluation
of the position after that move is `1`; the call plays three moves and comprises three `minimax_eval`
calls, two of them at depth 1. -/
theorem depth_one_is_not_leaf :
    (minimax_eval sampleGame 1 0 (pathMove 0) []).eval = 2 ∧
      sampleGame.evaluate (sampleGame.playMove [] (pathMove 0)) = 1 ∧
      (minimax_eval sampleGame 1 0 (pathMove 0) []).eval ≠
        sampleGame.evaluate (sampleGame.playMove [] (pathMove 0)) ∧
      SEv.enter 1 ∈ (minimax_eval sampleGame 1 0 (pathMove 0) []).log ∧
      playCount (minimax_eval sampleGame 1 0 (pathMove 0) []).log = 3 ∧
      enterCount (minimax_eval sampleGame 1 0 (pathMove 0) []).log = 3 := by
  decide

/-- C5 (amended): when `depth >= maxDepth`, in particular for `minimax_eval(0, m)` with max
depth 0, the returned evaluation is the raw evaluation of the position reached by playing
`m`, the board is the one `takeBack` leaves, and the call performs exactly one `playMove`,
one `evaluate`, one `takeBack` and no recursive call. -/
theorem minimax_eval_at_depth_limit (g : Game B) (maxDepth depth : Int) (m : Move) (b : B)
    (h : depth >= maxDepth) :
    (minimax_eval g maxDepth depth m b).eval = g.evaluate (g.playMove b m) ∧
      (minimax_eval g maxDepth depth m b).board = g.takeBack (g.playMove b m) ∧
      (minimax_eval g maxDepth depth m b).log =
        [.enter depth, .play m, .evaluate, .back, .finishedNode depth] := by
  rw [minimax_eval_leaf g maxDepth depth m b h]
  exact ⟨rfl, rfl, rfl⟩

theorem minimax_eval_at_depth_limit_witness :
    (0 : Int) >= 0 ∧
      (minimax_eval sampleGame 0 0 (pathMove 1) []).eval =
        sampleGame.evaluate (sampleGame.playMove [] (pathMove 1)) ∧
      (minimax_eval sampleGame 0 0 (pathMove 1) []).board =
        sampleGame.takeBack (sampleGame.playMove [] (pathMove 1)) ∧
      (minimax_eval sampleGame 0 0 (pathMove 1) []).log =
        [.enter 0, .play (pathMove 1), .evaluate, .back, .finishedNode 0] :=
  ⟨by decide, minimax_eval_at_depth_limit sampleGame 0 0 (pathMove 1) [] (by decide)⟩

/-! ## C6, C7: the worker loop -/

/-- C6 (as stated, refuted): for a work message with tag 3 whose board is not valid the worker
sends the single reply `14999` with tag 3; the reply is not the negated sentinel `-14999`. -/
theorem invalid_board_reply_is_not_negated :
    sampleWorker.isValid [0, 1] = false ∧
      sentReplies (processWork sampleWorker [⟨3, [0, 1]⟩]).log = [(14999, 3)] ∧
      sentReplies (processWork sampleWorker [⟨3, [0, 1]⟩]).log ≠ [(-14999, 3)] := by
  decide

/-- C6 (amended): for a work message (tag other than 1000) whose board is not valid, the
worker sends to rank 0 exactly one reply for it, the constant `14999` itself (no negation
is applied on this path), with the tag of the request, does not invoke the search strategy
for it, and goes on with the next message. -/
theorem processWork_invalid_board (w : Worker B) (msg : WorkMsg B) (inbound : List (WorkMsg B))
    (htag : msg.tag ≠ 1000) (hinvalid : w.isValid msg.buffer = false) :
    (processWork w (msg :: inbound)).log =
        [.recv msg.tag, .send 14999 0 msg.tag] ++ (processWork w inbound).log ∧
      (processWork w (msg :: inbound)).returned = (processWork w inbound).returned ∧
      sentReplies (processWork w [msg]).log = [(14999, msg.tag)] ∧
      searchedBoards (processWork w [msg]).log = [] := by
  simp [processWork, htag, hinvalid, sentReplies, searchedBoards]

theorem processWork_invalid_board_witness :
    ((3 : Int) ≠ 1000 ∧ sampleWorker.isValid [0, 1] = false) ∧
      (processWork sampleWorker [⟨3, [0, 1]⟩, ⟨1000, []⟩]).log =
        [.recv 3, .send 14999 0 3] ++ (processWork sampleWorker [⟨1000, []⟩]).log ∧
      (processWork sampleWorker [⟨3, [0, 1]⟩, ⟨1000, []⟩]).returned =
        (processWork sampleWorker [⟨1000, []⟩]).returned ∧
      sentReplies (processWork sampleWorker [⟨3, [0, 1]⟩]).log = [(14999, 3)] ∧
      searchedBoards (processWork sampleWorker [⟨3, [0, 1]⟩]).log = [] :=
  ⟨by decide, processWork_invalid_board sampleWorker ⟨3, [0, 1]⟩ [⟨1000, []⟩] (by decide)
    (by decide)⟩

/-- C7: for a work message with tag `k` other than 1000 whose board is valid, the worker runs
the search strategy on that board once and sends to rank 0 exactly one reply for it, with
value `-1 * _BOARD_bestEval` and tag `k`; for a message with tag 1000 it returns at once,
sending nothing and ignoring the rest of the stream. -/
theorem processWork_reply (w : Worker B) (msg : WorkMsg B) (inbound : List (WorkMsg B)) :
    (msg.tag ≠ 1000 → w.isValid msg.buffer = true →
      (processWork w (msg :: inbound)).log =
          [.recv msg.tag, .bestMove msg.buffer, .send (-1 * (w.bestMove msg.buffer).2) 0 msg.tag]
            ++ (processWork w inbound).log ∧
        (processWork w (msg :: inbound)).returned = (processWork w inbound).returned ∧
        sentReplies (processWork w [msg]).log = [(-1 * (w.bestMove msg.buffer).2, msg.tag)] ∧
        searchedBoards (processWork w [msg]).log = [msg.buffer]) ∧
    (msg.tag = 1000 →
      (processWork w (msg :: inbound)).log = [.recv 1000] ∧
        (processWork w (msg :: inbound)).returned = true ∧
        sentReplies (processWork w (msg :: inbound)).log = [] ∧
        searchedBoards (processWork w (msg :: inbound)).log = []) := by
  constructor
  · intro htag hvalid
    simp [processWork, htag, hvalid, sentReplies, searchedBoards]
  · intro htag
    simp [processWork, htag, sentReplies, searchedBoards]

theorem processWork_reply_witness :
    sampleWorker.isValid [1] = true ∧ (sampleWorker.bestMove [1]).2 = 0 ∧
      sampleWorker.isValid [0] = true ∧ (sampleWorker.bestMove [0]).2 = 3 ∧
      (processWork sampleWorker [⟨0, [0]⟩, ⟨1000, []⟩, ⟨1, [1]⟩]).log =
        [.recv 0, .bestMove [0], .send (-3) 0 0, .recv 1000] ∧
      (processWork sampleWorker [⟨0, [0]⟩, ⟨1000, []⟩, ⟨1, [1]⟩]).returned = true ∧
      sentReplies (processWork sampleWorker [⟨0, [0]⟩]).log = [(-3, 0)] ∧
      sentReplies (processWork sampleWorker [⟨1000, []⟩, ⟨1, [1]⟩]).log = [] := by
  have h0 := (processWork_reply sampleWorker ⟨0, [0]⟩ [⟨1000, []⟩, ⟨1, [1]⟩]).1
    (by decide) (by decide)
  have h1 := (processWork_reply sampleWorker ⟨1000, []⟩ [⟨1, [1]⟩]).2 (by decide)
  have hb : (sampleWorker.bestMove [0]).2 = 3 := by decide
  refine ⟨by decide, by decide, by decide, hb, ?_, ?_, ?_, h1.2.2.1⟩
  · rw [h0.1, h1.1]; simp [hb]
  · rw [h0.2.1, h1.2.1]
  · simpa [hb] using h0.2.2.1

/-! ## C8, C9: the opening override -/

theorem openingStep_active (isElement : List Move → Move → Bool) (myColor : Color)
    (stray : Stray) (list : List Move) (m : Move) (gl : Globals) (hopen : gl.opening = true) :
    openingStep isElement myColor stray list m gl =
      ⟨(openings myColor).getD gl.count_moves stray.tableCell,
        ⟨!(!isElement list ((openings myColor).getD gl.count_moves stray.tableCell)
            || decide (gl.count_moves >= 5)), gl.count_moves + 1⟩,
        some gl.count_moves⟩ := by
  cases myColor <;> simp [openingStep, hopen, openings]

theorem openingStep_inactive (isElement : List Move → Move → Bool) (myColor : Color)
    (stray : Stray) (list : List Move) (m : Move) (gl : Globals) (hopen : gl.opening = false) :
    openingStep isElement myColor stray list m gl = ⟨m, gl, none⟩ := by
  simp [openingStep, hopen]

theorem openings_type (myColor : Color) (c : Nat) (s : Move)
    (hs : (openings myColor)[c]? = some s) : s.type ≠ MoveType.none := by
  have hmem : s ∈ openings myColor := List.getElem?_mem hs
  cases myColor <;>
    simp [openings, openings_O, openings_X, move1O, move2O, move3O, move4O, move5O,
      move1X, move2X, move3X, move4X, move5X] at hmem <;>
    rcases hmem with rfl | rfl | rfl | rfl | rfl <;> simp

/-- C8: a move request of the coordinator made while opening mode is active with counter
`c < 5`, where `s` is the `c`-th scripted move of the engine colour: the counter is `c + 1`
after the opening block whether or not `s` is in the move list; and if `s` is in the move
list, the request draws exactly `s`, stays in opening mode, dispatches no work (no MPI
event at all) and runs no search. -/
theorem opening_override (g : Game B) (isElement : List Move → Move → Bool)
    (score : Nat → B → Int) (sched : Nat → Nat) (size : Nat) (myColor : Color)
    (stray : Stray) (gl : Globals) (b : B) (s : Move)
    (hopen : gl.opening = true) (hc : gl.count_moves < 5)
    (hs : (openings myColor)[gl.count_moves]? = some s) :
    (openingStep isElement myColor stray (g.generateMoves b) noMove gl).globals.count_moves =
        gl.count_moves + 1 ∧
      (openingStep isElement myColor stray (g.generateMoves b) noMove gl).m = s ∧
      (isElement (g.generateMoves b) s = true →
        receivedCoordinator g isElement score sched size myColor stray gl b =
          some ⟨⟨true, gl.count_moves + 1⟩, s, g.playMove b s, [], false, true,
            some gl.count_moves⟩) := by
  have hget : (openings myColor).getD gl.count_moves stray.tableCell = s := by
    simp [List.getD, hs]
  have hstep := openingStep_active isElement myColor stray (g.generateMoves b) noMove gl hopen
  rw [hget] at hstep
  refine ⟨by rw [hstep], by rw [hstep], ?_⟩
  intro hlegal
  have hnot : ¬ (5 ≤ gl.count_moves) := by omega
  simp [receivedCoordinator, hstep, hlegal, hnot, drawMove, openings_type myColor _ s hs]

theorem opening_override_witness :
    (openings Color.color1)[globalsInit.count_moves]? = some ⟨12, .RightDown, .move3⟩ ∧
      isElementSample (wideGame.generateMoves []) ⟨12, .RightDown, .move3⟩ = true ∧
      receivedCoordinator wideGame isElementSample (fun _ _ => 0) (fun _ => 0) 3 Color.color1
          straySample globalsInit [] =
        some ⟨⟨true, 1⟩, ⟨12, .RightDown, .move3⟩, [12], [], false, true, some 0⟩ :=
  ⟨by decide, by decide,
    (opening_override wideGame isElementSample (fun _ _ => 0) (fun _ => 0) 3 Color.color1
      straySample globalsInit [] ⟨12, .RightDown, .move3⟩ (by decide) (by decide)
      (by decide)).2.2 (by decide)⟩

/-! ## The coordinator loops -/

theorem drop_eq_cons {α : Type} (l : List α) (k : Nat) (x : α) (xs : List α)
    (h : l.drop k = x :: xs) : l[k]? = some x ∧ l.drop (k + 1) = xs ∧ k < l.length := by
  have h1 : (l.drop k)[0]? = some x := by rw [h]; simp
  rw [List.getElem?_drop] at h1
  have h2 : l.drop (k + 1) = (l.drop k).tail := by simp [List.tail_drop]
  have h3 : k < l.length := by
    by_contra hc
    rw [List.drop_eq_nil_of_le (by omega)] at h
    exact List.noConfusion h
  exact ⟨by simpa using h1, by rw [h2, h]; rfl, h3⟩

theorem snapshots_length (g : Game B) (list : List Move) (b : B) :
    (snapshots g list b).length = list.length := by
  induction list generalizing b with
  | nil => rfl
  | cons m list ih => simp [snapshots, ih]

theorem isendTags_append (l1 l2 : List (CEv B)) :
    isendTags (l1 ++ l2) = isendTags l1 ++ isendTags l2 := by
  induction l1 with
  | nil => rfl
  | cons e l1 ih => cases e <;> simp [isendTags, ih]

theorem recvCount_append (l1 l2 : List (CEv B)) :
    recvCount (l1 ++ l2) = recvCount l1 + recvCount l2 := by
  induction l1 with
  | nil => simp [recvCount]
  | cons e l1 ih => cases e <;> simp [recvCount, ih, Nat.add_right_comm]

theorem sendDests_append (l1 l2 : List (CEv B)) :
    sendDests (l1 ++ l2) = sendDests l1 ++ sendDests l2 := by
  induction l1 with
  | nil => rfl
  | cons e l1 ih => cases e <;> simp [sendDests, ih]

theorem coordInit_inv (g : Game B) (score : Nat → B → Int) (stray : Stray) (b : B) :
    CoordInv g score b (g.generateMoves b) (coordInit g stray b) where
  k_le := Nat.zero_le _
  cursor := by simp [coordInit]
  snaps := by simp [coordInit]
  pend := by simp [coordInit]
  evals := by simp [coordInit]
  ev_len := by simp [coordInit]
  flm_len := by simp [coordInit]
  flm := by simp [coordInit]
  count := by simp [coordInit]
  log_tags := by simp [coordInit, isendTags]
  log_recv := by simp [coordInit, recvCount]
  log_send := by simp [coordInit, sendDests]

/-- Fetching the next move: below the list length a move remains and becomes `DummyMove`. -/
theorem getNext_inv (g : Game B) (score : Nat → B → Int) (b0 : B) (st : Coord B)
    (hinv : CoordInv g score b0 st.list st) (hk : st.k < (g.generateMoves b0).length) :
    (getNext st).1 = true ∧
      CoordInv g score b0 ((getNext st).2.DummyMove :: (getNext st).2.list) (getNext st).2 ∧
      (getNext st).2.k = st.k ∧ (getNext st).2.recieved_evals = st.recieved_evals ∧
      (getNext st).2.pending = st.pending ∧ (getNext st).2.log = st.log := by
  cases hl : st.list with
  | nil =>
    have := hinv.cursor
    rw [hl] at this
    have hlen := congrArg List.length this
    simp at hlen
    omega
  | cons m rest =>
    have hget : getNext st = (true, { st with DummyMove := m, list := rest }) := by
      simp [getNext, hl]
    rw [hget]
    refine ⟨rfl, ?_, rfl, rfl, rfl, rfl⟩
    rw [hl] at hinv
    exact ⟨hinv.k_le, hinv.cursor, hinv.snaps, hinv.pend, hinv.evals, hinv.ev_len,
      hinv.flm_len, hinv.flm, hinv.count, hinv.log_tags, hinv.log_recv, hinv.log_send⟩

/-- At the end of the list no move remains and nothing changes. -/
theorem getNext_done (g : Game B) (score : Nat → B → Int) (b0 : B) (st : Coord B)
    (hinv : CoordInv g score b0 st.list st) (hk : st.k = (g.generateMoves b0).length) :
    getNext st = (false, st) := by
  have := hinv.cursor
  rw [hk, List.drop_length] at this
  simp [getNext, this]

/-- Sending the fetched move keeps the invariant and raises `k` by one. -/
theorem sendWork_inv (g : Game B) (score : Nat → B → Int) (b0 : B) (st : Coord B)
    (slot dest : Nat) (hinv : CoordInv g score b0 (st.DummyMove :: st.list) st) :
    CoordInv g score b0 st.list (sendWork g slot dest st) ∧
      (sendWork g slot dest st).list = st.list ∧
      (sendWork g slot dest st).k = st.k + 1 ∧
      (sendWork g slot dest st).recieved_evals = st.recieved_evals ∧
      (sendWork g slot dest st).pending ≠ [] := by
  have hcur := hinv.cursor
  obtain ⟨hmk, hdrop, hk⟩ := drop_eq_cons _ _ _ _ hcur.symm
  have hsn := hinv.snaps
  simp only [snapshots] at hsn
  obtain ⟨hsk, hsdrop, _⟩ := drop_eq_cons _ _ _ _ hsn.symm
  refine ⟨?_, rfl, rfl, rfl, by simp [sendWork]⟩
  constructor
  · show st.k + 1 ≤ _
    omega
  · show st.list = _
    exact hdrop.symm
  · show snapshots g st.list (g.takeBack (g.playMove st.board st.DummyMove)) = _
    exact hsdrop.symm
  · intro w hw
    simp only [sendWork, List.mem_append, List.mem_singleton] at hw
    rcases hw with hw | rfl
    · have := hinv.pend w hw
      exact ⟨by show w.tag < st.k + 1; omega, this.2⟩
    · exact ⟨by show st.k < st.k + 1; omega, hsk⟩
  · intro t ht hnot
    have htk : t ≠ st.k := by
      intro h
      exact hnot ⟨dest, st.k, g.playMove st.board st.DummyMove⟩ (by simp [sendWork]) h.symm
    have ht2 : t < st.k := by
      have : t < st.k + 1 := ht
      omega
    have := hinv.evals t ht2 (fun w hw => hnot w (by simp [sendWork, hw]))
    simpa [sendWork] using this
  · simpa [sendWork] using hinv.ev_len
  · simpa [sendWork] using hinv.flm_len
  · intro t ht
    have ht1 : t < st.k + 1 := ht
    show (st.FirstLayerMoves.set st.k st.DummyMove)[t]? = _
    by_cases htk : t = st.k
    · subst htk
      rw [List.getElem?_set_self (by rw [hinv.flm_len]; exact hk), hmk]
    · rw [List.getElem?_set_ne (by omega)]
      exact hinv.flm t (by omega)
  · show (st.pending ++ [_]).length + st.recieved_evals = st.k + 1
    have := hinv.count
    simp
    omega
  · show isendTags (st.log ++ [_]) = List.range (st.k + 1)
    rw [isendTags_append, hinv.log_tags, List.range_succ]
    rfl
  · show recvCount (st.log ++ [_]) = st.recieved_evals
    rw [recvCount_append, hinv.log_recv]
    rfl
  · show sendDests (st.log ++ [_]) = []
    rw [sendDests_append, hinv.log_send]
    rfl

/-- Receiving an evaluation: with outstanding work the receive returns, and it keeps the
invariant and raises `recieved_evals` by one. -/
theorem recvEval_inv (g : Game B) (score : Nat → B → Int) (sched : Nat → Nat) (b0 : B)
    (list : List Move) (st : Coord B) (hinv : CoordInv g score b0 list st)
    (hp : st.pending ≠ []) :
    ∃ r st1, recvEval score sched st = some (r, st1) ∧
      CoordInv g score b0 list st1 ∧ st1.list = st.list ∧ st1.DummyMove = st.DummyMove ∧
      st1.k = st.k ∧ st1.recieved_evals = st.recieved_evals + 1 := by
  have hpos : 0 < st.pending.length := List.length_pos.2 hp
  have hi : sched st.recieved_evals % st.pending.length < st.pending.length :=
    Nat.mod_lt _ hpos
  obtain ⟨w, hw⟩ : ∃ w, st.pending[sched st.recieved_evals % st.pending.length]? = some w :=
    ⟨_, List.getElem?_eq_getElem hi⟩
  have hwmem : w ∈ st.pending := List.getElem?_mem hw
  have hwp := hinv.pend w hwmem
  refine ⟨⟨score w.tag w.buffer, w.dest, w.tag⟩,
    { st with
      eval_vector := st.eval_vector.set w.tag (score w.tag w.buffer)
      recieved_evals := st.recieved_evals + 1
      pending := st.pending.eraseIdx (sched st.recieved_evals % st.pending.length)
      log := st.log ++ [.recv (score w.tag w.buffer) w.dest w.tag] },
    by simp [recvEval, mpiRecv, hw], ?_, rfl, rfl, rfl, rfl⟩
  constructor
  · exact hinv.k_le
  · exact hinv.cursor
  · exact hinv.snaps
  · intro v hv
    exact hinv.pend v (List.mem_of_mem_eraseIdx hv)
  · intro t ht hnot
    show (st.eval_vector.set w.tag (score w.tag w.buffer))[t]? = _
    by_cases htw : w.tag = t
    · subst htw
      rw [List.getElem?_set_self (by rw [hinv.ev_len]; have := hinv.k_le; omega), hwp.2]
      rfl
    · rw [List.getElem?_set_ne htw]
      apply hinv.evals t ht
      intro v hv hvt
      obtain ⟨i, hvi⟩ := List.getElem?_of_mem hv
      by_cases hii : i = sched st.recieved_evals % st.pending.length
      · rw [hii, hw] at hvi
        cases hvi
        exact htw hvt
      · exact hnot v (List.mem_eraseIdx_iff_getElem?.2 ⟨i, hii, hvi⟩) hvt
  · simpa using hinv.ev_len
  · exact hinv.flm_len
  · exact hinv.flm
  · show (st.pending.eraseIdx _).length + (st.recieved_evals + 1) = st.k
    rw [List.length_eraseIdx_of_lt hi]
    have := hinv.count
    omega
  · show isendTags (st.log ++ [_]) = List.range st.k
    rw [isendTags_append, hinv.log_tags]
    simp [isendTags]
  · show recvCount (st.log ++ [_]) = st.recieved_evals + 1
    rw [recvCount_append, hinv.log_recv]
    rfl
  · show sendDests (st.log ++ [_]) = []
    rw [sendDests_append, hinv.log_send]
    rfl

/-- The dispatch loop sends the first `min (size - 1) listLength` moves and receives nothing. -/
theorem dispatchLoop_inv (g : Game B) (score : Nat → B → Int) (size : Nat) (b0 : B)
    (fuel : Nat) (st : Coord B) (hinv : CoordInv g score b0 st.list st)
    (hrec : st.recieved_evals = 0)
    (hk : st.k ≤ min (size - 1) (g.generateMoves b0).length)
    (hfuel : (g.generateMoves b0).length ≤ fuel + st.k) :
    CoordInv g score b0 (dispatchLoop g size (g.generateMoves b0).length fuel st).list
        (dispatchLoop g size (g.generateMoves b0).length fuel st) ∧
      (dispatchLoop g size (g.generateMoves b0).length fuel st).recieved_evals = 0 ∧
      (dispatchLoop g size (g.generateMoves b0).length fuel st).k =
        min (size - 1) (g.generateMoves b0).length := by
  induction fuel generalizing st with
  | zero =>
    simp only [dispatchLoop]
    exact ⟨hinv, hrec, by omega⟩
  | succ fuel ih =>
    simp only [dispatchLoop]
    split
    · rename_i hcond
      obtain ⟨_, hinv1, hk1, hrec1, _, _⟩ := getNext_inv g score b0 st hinv hcond.2
      obtain ⟨hinv2, hlist2, hk2, hrec2, _⟩ :=
        sendWork_inv g score b0 (getNext st).2 (getNext st).2.k ((getNext st).2.k + 1) hinv1
      rw [← hlist2] at hinv2
      exact ih _ hinv2 (by rw [hrec2, hrec1, hrec]) (by rw [hk2, hk1]; omega)
        (by rw [hk2, hk1]; omega)
    · rename_i hcond
      exact ⟨hinv, hrec, by omega⟩

/-- The streaming loop never blocks and ends with all moves dispatched. -/
theorem streamLoop_inv (g : Game B) (score : Nat → B → Int) (sched : Nat → Nat) (b0 : B)
    (fuel : Nat) (st : Coord B) (hinv : CoordInv g score b0 st.list st)
    (hp : st.k < (g.generateMoves b0).length → st.pending ≠ [])
    (hfuel : fuel + st.k = (g.generateMoves b0).length) :
    ∃ st1, streamLoop g score sched fuel st = some st1 ∧
      CoordInv g score b0 st1.list st1 ∧ st1.k = (g.generateMoves b0).length := by
  induction fuel generalizing st with
  | zero =>
    have hdone := getNext_done g score b0 st hinv (by omega)
    exact ⟨st, by simp [streamLoop, hdone], hinv, by omega⟩
  | succ fuel ih =>
    have hk : st.k < (g.generateMoves b0).length := by omega
    obtain ⟨hnext, hinv1, hk1, _, hpend1, _⟩ := getNext_inv g score b0 st hinv hk
    obtain ⟨r, st2, hrecv, hinv2, hlist2, hdummy2, hk2, _⟩ :=
      recvEval_inv g score sched b0 _ (getNext st).2 hinv1 (by rw [hpend1]; exact hp hk)
    rw [← hlist2, ← hdummy2] at hinv2
    obtain ⟨hinv3, hlist3, hk3, _, hpend3⟩ :=
      sendWork_inv g score b0 st2 (r.source - 1) r.source hinv2
    rw [← hlist3] at hinv3
    obtain ⟨st4, hrun, hinv4, hk4⟩ :=
      ih _ hinv3 (fun _ => hpend3) (by rw [hk3, hk2, hk1]; omega)
    exact ⟨st4, by simp [streamLoop, hnext, hrecv, hrun], hinv4, hk4⟩

/-- The drain loop never blocks and ends with all evaluations received. -/
theorem drainLoop_inv (g : Game B) (score : Nat → B → Int) (sched : Nat → Nat) (b0 : B)
    (list : List Move) (fuel : Nat) (st : Coord B) (hinv : CoordInv g score b0 list st)
    (hk : st.k = (g.generateMoves b0).length)
    (hfuel : (g.generateMoves b0).length ≤ fuel + st.recieved_evals) :
    ∃ st1, drainLoop score sched (g.generateMoves b0).length fuel st = some st1 ∧
      CoordInv g score b0 list st1 ∧ st1.k = (g.generateMoves b0).length ∧
      st1.recieved_evals = (g.generateMoves b0).length ∧ st1.pending = [] := by
  have hdone : ∀ s : Coord B, CoordInv g score b0 list s →
      s.k = (g.generateMoves b0).length → ¬ s.recieved_evals < (g.generateMoves b0).length →
      s.recieved_evals = (g.generateMoves b0).length ∧ s.pending = [] := by
    intro s hs hsk hcond
    have := hs.count
    exact ⟨by omega, List.length_eq_zero.1 (by omega)⟩
  induction fuel generalizing st with
  | zero =>
    have hcond : ¬ st.recieved_evals < (g.generateMoves b0).length := by omega
    exact ⟨st, by simp [drainLoop, hcond], hinv, hk, hdone st hinv hk hcond⟩
  | succ fuel ih =>
    by_cases hcond : st.recieved_evals < (g.generateMoves b0).length
    · have hp : st.pending ≠ [] := by
        intro h
        have := hinv.count
        rw [h] at this
        simp at this
        omega
      obtain ⟨r, st2, hrecv, hinv2, _, _, hk2, hrec2⟩ :=
        recvEval_inv g score sched b0 list st hinv hp
      obtain ⟨st3, hrun, hrest⟩ := ih st2 hinv2 (by rw [hk2, hk]) (by rw [hrec2]; omega)
      exact ⟨st3, by simp [drainLoop, hcond, hrecv, hrun], hrest⟩
    · exact ⟨st, by simp [drainLoop, hcond], hinv, hk, hdone st hinv hk hcond⟩

/-- The communication part of a request with at least one worker never blocks; before the
termination loop all moves are dispatched, all evaluations received and none outstanding. -/
theorem coordinatorLoop_inv (g : Game B) (score : Nat → B → Int) (sched : Nat → Nat)
    (size : Nat) (stray : Stray) (b : B) (hsize : 2 ≤ size) :
    ∃ st list, coordinatorLoop g score sched size stray b = some (terminateWorkers size st) ∧
      CoordInv g score b list st ∧ st.k = (g.generateMoves b).length ∧
      st.recieved_evals = (g.generateMoves b).length ∧ st.pending = [] := by
  obtain ⟨hinv1, hrec1, hk1⟩ := dispatchLoop_inv g score size b (g.generateMoves b).length
    (coordInit g stray b) (coordInit_inv g score stray b) rfl (Nat.zero_le _) (Nat.le_add_right _ _)
  have hp : (dispatchLoop g size (g.generateMoves b).length (g.generateMoves b).length
      (coordInit g stray b)).k < (g.generateMoves b).length →
      (dispatchLoop g size (g.generateMoves b).length (g.generateMoves b).length
        (coordInit g stray b)).pending ≠ [] := by
    intro hlt h
    have := hinv1.count
    rw [h, hrec1, hk1] at this
    rw [hk1] at hlt
    simp at this
    omega
  have hlen : (dispatchLoop g size (g.generateMoves b).length (g.generateMoves b).length
      (coordInit g stray b)).list.length +
      (dispatchLoop g size (g.generateMoves b).length (g.generateMoves b).length
        (coordInit g stray b)).k = (g.generateMoves b).length := by
    have hc := hinv1.cursor
    have hle := hinv1.k_le
    rw [hc, List.length_drop]
    omega
  obtain ⟨st2, hrun2, hinv2, hk2⟩ := streamLoop_inv g score sched b _ _ hinv1 hp hlen
  obtain ⟨st3, hrun3, hinv3, hk3, hrec3, hpend3⟩ :=
    drainLoop_inv g score sched b st2.list (g.generateMoves b).length st2 hinv2 hk2
      (Nat.le_add_right _ _)
  refine ⟨st3, st2.list, ?_, hinv3, hk3, hrec3, hpend3⟩
  simp [coordinatorLoop, hrun2, hrun3]

/-- The selection loop over the first `n` entries: when they all exceed `-9999999`, the
result is the first index of their maximum together with that maximum. -/
theorem selectBest_spec (ev : List Int) (n : Nat) (hgt : ∀ i, i < n → -9999999 < ev.getD i 0) :
    (n = 0 → selectBest ev n = (-9999999, 0)) ∧
      (0 < n → (selectBest ev n).2 < n ∧ ev.getD (selectBest ev n).2 0 = (selectBest ev n).1 ∧
        (∀ i, i < n → ev.getD i 0 ≤ (selectBest ev n).1) ∧
        (∀ i, i < (selectBest ev n).2 → ev.getD i 0 < (selectBest ev n).1)) := by
  induction n with
  | zero => exact ⟨fun _ => rfl, fun h => absurd h (Nat.lt_irrefl 0)⟩
  | succ n ih =>
    obtain ⟨ih0, ihpos⟩ := ih (fun i hi => hgt i (by omega))
    refine ⟨fun h => absurd h (Nat.succ_ne_zero n), fun _ => ?_⟩
    have hstep : selectBest ev (n + 1) =
        if ev.getD n 0 > (selectBest ev n).1 then (ev.getD n 0, n) else selectBest ev n := by
      simp [selectBest, List.range_succ, List.foldl_append]
    rw [hstep]
    rcases Nat.eq_zero_or_pos n with hn | hn
    · subst hn
      have h0 := hgt 0 (by omega)
      rw [ih0 rfl, if_pos h0]
      refine ⟨by omega, rfl, ?_, ?_⟩
      · intro i hi
        have : i = 0 := by omega
        subst this
        exact le_refl _
      · intro i hi
        simp at hi
    · obtain ⟨hlt, heq, hmax, hfirst⟩ := ihpos hn
      by_cases hc : ev.getD n 0 > (selectBest ev n).1
      · rw [if_pos hc]
        refine ⟨by simp, rfl, ?_, ?_⟩
        · intro i hi
          rcases Nat.lt_succ_iff_lt_or_eq.1 hi with h | h
          · have := hmax i h
            simp only
            omega
          · subst h
            exact le_refl _
        · intro i hi
          have := hmax i hi
          simp only
          omega
      · rw [if_neg hc]
        refine ⟨by omega, heq, ?_, hfirst⟩
        intro i hi
        rcases Nat.lt_succ_iff_lt_or_eq.1 hi with h | h
        · exact hmax i h
        · subst h
          omega

/-- What the invariant gives once everything is dispatched and nothing is outstanding:
`FirstLayerMoves` is the generated move list and `eval_vector[t]` is the evaluation of the
board packed for move `t`. -/
theorem coordInv_final (g : Game B) (score : Nat → B → Int) (b0 : B) (list : List Move)
    (st : Coord B) (hinv : CoordInv g score b0 list st)
    (hk : st.k = (g.generateMoves b0).length) (hp : st.pending = []) :
    st.FirstLayerMoves = g.generateMoves b0 ∧
      st.eval_vector = (List.range (g.generateMoves b0).length).map
        (fun t => score t ((snapshots g (g.generateMoves b0) b0).getD t b0)) := by
  constructor
  · apply List.ext_getElem?
    intro t
    by_cases ht : t < st.k
    · exact hinv.flm t ht
    · rw [List.getElem?_eq_none (by rw [hinv.flm_len]; omega),
        List.getElem?_eq_none (by omega)]
  · apply List.ext_getElem?
    intro t
    by_cases ht : t < st.k
    · rw [hinv.evals t ht (by simp [hp])]
      have hlt : t < (snapshots g (g.generateMoves b0) b0).length := by
        rw [snapshots_length]; omega
      simp [List.getElem?_eq_getElem hlt, List.getD_eq_getElem _ _ hlt, hk ▸ ht]
    · rw [List.getElem?_eq_none (by rw [hinv.ev_len]; omega),
        List.getElem?_eq_none (by simp; omega)]

/-- The search branch with at least one worker returns for every reply order; with at
least one move whose replies all exceed `-9999999` it chooses the first generated move
whose reply is the maximum. `v t` is the reply for tag `t`. -/
theorem coordinatorSearch_spec (g : Game B) (score : Nat → B → Int) (sched : Nat → Nat)
    (size : Nat) (stray : Stray) (b : B) (hsize : 2 ≤ size)
    (hN : 1 ≤ (g.generateMoves b).length)
    (hlow : ∀ i, i < (g.generateMoves b).length →
      -9999999 < score i ((snapshots g (g.generateMoves b) b).getD i b)) :
    ∃ j mj st, coordinatorSearch g score sched size stray b = some (mj, st) ∧
      (g.generateMoves b)[j]? = some mj ∧
      (∀ i, i < (g.generateMoves b).length →
        score i ((snapshots g (g.generateMoves b) b).getD i b) ≤
          score j ((snapshots g (g.generateMoves b) b).getD j b)) ∧
      (∀ i, i < j →
        score i ((snapshots g (g.generateMoves b) b).getD i b) <
          score j ((snapshots g (g.generateMoves b) b).getD j b)) ∧
      st.eval_vector = (List.range (g.generateMoves b).length).map
        (fun t => score t ((snapshots g (g.generateMoves b) b).getD t b)) ∧
      st.FirstLayerMoves = g.generateMoves b := by
  obtain ⟨st, list, hrun, hinv, hk, _, hp⟩ := coordinatorLoop_inv g score sched size stray b hsize
  obtain ⟨hflm, hev⟩ := coordInv_final g score b list st hinv hk hp
  have hget : ∀ i, i < (g.generateMoves b).length →
      st.eval_vector.getD i 0 = score i ((snapshots g (g.generateMoves b) b).getD i b) := by
    intro i hi
    rw [hev, List.getD_eq_getElem _ _ (by simpa using hi)]
    simp
  obtain ⟨hlt, hsel, hmax, hfirst⟩ :=
    (selectBest_spec st.eval_vector (g.generateMoves b).length
      (fun i hi => by rw [hget i hi]; exact hlow i hi)).2 hN
  have hbest := hget _ hlt
  refine ⟨(selectBest st.eval_vector (g.generateMoves b).length).2,
    (g.generateMoves b)[(selectBest st.eval_vector (g.generateMoves b).length).2],
    terminateWorkers size st, ?_, List.getElem?_eq_getElem hlt, ?_, ?_, hev, hflm⟩
  · simp [coordinatorSearch, hrun, selectedMove, terminateWorkers, hflm,
      List.getElem?_eq_getElem hlt]
  · intro i hi
    have := hmax i hi
    rw [hget i hi] at this
    rw [← hbest, hsel]
    exact this
  · intro i hi
    have := hfirst i hi
    rw [hget i (by omega)] at this
    rw [← hbest, hsel]
    exact this

theorem openingRun_append (isElement : List Move → Move → Bool) (myColor : Color)
    (stray : Stray) (r1 r2 : List (List Move)) (gl : Globals) :
    openingRun isElement myColor stray (r1 ++ r2) gl =
      openingRun isElement myColor stray r2 (openingRun isElement myColor stray r1 gl) := by
  induction r1 generalizing gl with
  | nil => rfl
  | cons list r1 ih => simp [openingRun, ih]

theorem openingRun_inactive (isElement : List Move → Move → Bool) (myColor : Color)
    (stray : Stray) (requests : List (List Move)) (gl : Globals) (h : gl.opening = false) :
    openingRun isElement myColor stray requests gl = gl := by
  induction requests with
  | nil => rfl
  | cons list requests ih =>
    simp [openingRun, openingStep_inactive isElement myColor stray list noMove gl h, ih]

theorem openingStep_opening (isElement : List Move → Move → Bool) (myColor : Color)
    (stray : Stray) (list : List Move) (m : Move) (gl : Globals) :
    (openingStep isElement myColor stray list m gl).globals.opening = true ↔
      gl.opening = true ∧ gl.count_moves < 5 ∧
        isElement list ((openings myColor).getD gl.count_moves stray.tableCell) = true := by
  cases hopen : gl.opening with
  | false => simp [openingStep_inactive isElement myColor stray list m gl hopen, hopen]
  | true =>
    rw [openingStep_active isElement myColor stray list m gl hopen]
    simp
    constructor
    · rintro ⟨h1, h2⟩; exact ⟨h2, h1⟩
    · rintro ⟨h1, h2⟩; exact ⟨h2, h1⟩

theorem openingStep_count (isElement : List Move → Move → Bool) (myColor : Color)
    (stray : Stray) (list : List Move) (m : Move) (gl : Globals) (hopen : gl.opening = true) :
    (openingStep isElement myColor stray list m gl).globals.count_moves = gl.count_moves + 1 := by
  rw [openingStep_active isElement myColor stray list m gl hopen]

theorem openingRun_active (isElement : List Move → Move → Bool) (myColor : Color)
    (stray : Stray) (requests : List (List Move)) (gl : Globals)
    (h : (openingRun isElement myColor stray requests gl).opening = true) :
    gl.opening = true ∧
      (openingRun isElement myColor stray requests gl).count_moves =
        gl.count_moves + requests.length ∧
      (requests ≠ [] → gl.count_moves + requests.length ≤ 5) := by
  induction requests generalizing gl with
  | nil => exact ⟨h, rfl, fun hne => absurd rfl hne⟩
  | cons list requests ih =>
    simp only [openingRun] at h ⊢
    obtain ⟨h1, h2, h3⟩ := ih _ h
    obtain ⟨hopen, hlt, _⟩ := (openingStep_opening isElement myColor stray list noMove gl).1 h1
    have hc := openingStep_count isElement myColor stray list noMove gl hopen
    refine ⟨hopen, by rw [h2, hc]; simp; omega, fun _ => ?_⟩
    cases requests with
    | nil => simp; omega
    | cons l2 rest =>
      have := h3 (List.cons_ne_nil _ _)
      rw [hc] at this
      simp at this ⊢
      omega

theorem scriptedCount_le (isElement : List Move → Move → Bool) (myColor : Color)
    (stray : Stray) (requests : List (List Move)) (gl : Globals) :
    scriptedCount isElement myColor stray requests gl ≤
      if gl.opening = true then 5 - gl.count_moves else 0 := by
  induction requests generalizing gl with
  | nil => simp [scriptedCount]
  | cons list requests ih =>
    simp only [scriptedCount]
    have hrest := ih (openingStep isElement myColor stray list noMove gl).globals
    by_cases h1 : (openingStep isElement myColor stray list noMove gl).globals.opening = true
    · obtain ⟨hopen, hlt, _⟩ := (openingStep_opening isElement myColor stray list noMove gl).1 h1
      have hc := openingStep_count isElement myColor stray list noMove gl hopen
      rw [if_pos h1, hc] at hrest
      rw [if_pos h1, if_pos hopen]
      omega
    · rw [if_neg h1] at hrest
      rw [if_neg h1]
      split <;> omega

/-- The search branch with at least one worker returns for every reply order. -/
theorem coordinatorSearch_returns (g : Game B) (score : Nat → B → Int) (sched : Nat → Nat)
    (size : Nat) (stray : Stray) (b : B) (hsize : 2 ≤ size) :
    ∃ m st, coordinatorSearch g score sched size stray b = some (m, st) := by
  obtain ⟨st, _, hrun, _⟩ := coordinatorLoop_inv g score sched size stray b hsize
  exact ⟨selectedMove stray (g.generateMoves b).length (terminateWorkers size st),
    terminateWorkers size st, by simp [coordinatorSearch, hrun]⟩


/-! ## The one-item-per-worker discipline -/

theorem track_append (l1 l2 : List (CEv B)) :
    track (l1 ++ l2) = l2.foldl trackStep (track l1) := by
  simp [track, List.foldl_append]

theorem trackStep_foldl_none (l : List (CEv B)) : l.foldl trackStep none = none := by
  induction l with
  | nil => rfl
  | cons e l ih => simpa [List.foldl, trackStep] using ih

theorem slotsOk_append (size : Nat) (l1 l2 : List (CEv B)) :
    slotsOk size (l1 ++ l2) = (slotsOk size l1 && slotsOk size l2) := by
  induction l1 with
  | nil => simp [slotsOk]
  | cons e l1 ih => cases e <;> simp [slotsOk, ih, Bool.and_assoc]

theorem eraseIdx_map {α β : Type} (f : α → β) (l : List α) (i : Nat) :
    (l.eraseIdx i).map f = (l.map f).eraseIdx i := by
  induction l generalizing i with
  | nil => simp
  | cons a l ih => cases i <;> simp [ih]

theorem coordInit_slotInv (g : Game B) (size : Nat) (stray : Stray) (b : B) :
    SlotInv size (coordInit g stray b) ⟨[], [], none⟩ where
  run := rfl
  busy_eq := rfl
  nodup := List.nodup_nil
  range := by simp
  slots := rfl

/-- Sending work to an idle rank `dest` from slot `dest - 1`, either for the first time or
directly after its reply, keeps the discipline. -/
theorem sendWork_slotInv (g : Game B) (size : Nat) (st : Coord B) (t : Track)
    (slot dest : Nat) (hinv : SlotInv size st t) (hslot : slot + 1 = dest)
    (hdest : dest ≤ size - 1) (hidle : dest ∉ t.busy)
    (hnew : dest ∉ t.started ∨ t.last = some dest) :
    SlotInv size (sendWork g slot dest st) ⟨t.busy ++ [dest], dest :: t.started, none⟩ := by
  constructor
  · show track (st.log ++ [_]) = _
    rw [track_append, hinv.run]
    have h3 : ¬ (dest ∈ t.started ∧ t.last ≠ some dest) := by
      rintro ⟨h1, h2⟩
      rcases hnew with h | h
      · exact h h1
      · exact h2 h
    simp [trackStep, hidle, hslot, h3]
  · show t.busy ++ [dest] = (st.pending ++ [_]).map _
    rw [List.map_append, ← hinv.busy_eq]
    rfl
  · show (t.busy ++ [dest]).Nodup
    rw [List.nodup_append]
    refine ⟨hinv.nodup, List.nodup_singleton _, ?_⟩
    intro a ha hb
    rw [List.mem_singleton] at hb
    subst hb
    exact hidle ha
  · intro r hr
    rcases List.mem_append.1 hr with h | h
    · exact hinv.range r h
    · rw [List.mem_singleton] at h
      subst h
      omega
  · show slotsOk size (st.log ++ [_]) = true
    rw [slotsOk_append, hinv.slots]
    simp [slotsOk, hslot, hdest]

/-- Receiving a reply keeps the discipline; the replying rank is idle afterwards and is
remembered as the source of the last receive. -/
theorem recvEval_slotInv (score : Nat → B → Int) (sched : Nat → Nat) (size : Nat)
    (st st1 : Coord B) (t : Track) (r : Reply) (hinv : SlotInv size st t)
    (hrecv : recvEval score sched st = some (r, st1)) :
    SlotInv size st1 ⟨t.busy.erase r.source, t.started, some r.source⟩ ∧
      r.source ∉ t.busy.erase r.source ∧ 1 ≤ r.source ∧ r.source ≤ size - 1 := by
  simp only [recvEval, mpiRecv] at hrecv
  cases hw : st.pending[sched st.recieved_evals % st.pending.length]? with
  | none => simp [hw] at hrecv
  | some w =>
    simp only [hw, Option.some.injEq, Prod.mk.injEq] at hrecv
    obtain ⟨hr, hst⟩ := hrecv
    subst hr
    subst hst
    obtain ⟨hi, hwi⟩ := List.getElem?_eq_some.1 hw
    have hmem : w.dest ∈ t.busy := by
      rw [hinv.busy_eq]
      exact List.mem_map.2 ⟨w, List.getElem?_mem hw, rfl⟩
    have hlen : sched st.recieved_evals % st.pending.length <
        (st.pending.map (fun w => w.dest)).length := by simpa using hi
    have herase : t.busy.erase w.dest =
        (st.pending.eraseIdx (sched st.recieved_evals % st.pending.length)).map
          (fun w => w.dest) := by
      have hnd := hinv.nodup
      rw [hinv.busy_eq] at hnd ⊢
      have := List.Nodup.erase_getElem hnd _ hlen
      rw [eraseIdx_map, ← this]
      simp [hwi]
    refine ⟨?_, List.Nodup.not_mem_erase hinv.nodup, hinv.range _ hmem⟩
    constructor
    · show track (st.log ++ [_]) = _
      rw [track_append, hinv.run]
      simp [trackStep, hmem]
    · exact herase
    · exact List.Nodup.erase _ hinv.nodup
    · intro x hx
      exact hinv.range x (List.mem_of_mem_erase hx)
    · show slotsOk size (st.log ++ [_]) = true
      rw [slotsOk_append, hinv.slots]
      rfl

theorem getNext_slotInv (size : Nat) (st : Coord B) (t : Track) (hinv : SlotInv size st t) :
    SlotInv size (getNext st).2 t ∧ (getNext st).2.k = st.k := by
  cases hl : st.list with
  | nil =>
    have : getNext st = (false, st) := by simp [getNext, hl]
    rw [this]
    exact ⟨hinv, rfl⟩
  | cons m rest =>
    have : getNext st = (true, { st with DummyMove := m, list := rest }) := by
      simp [getNext, hl]
    rw [this]
    exact ⟨⟨hinv.run, hinv.busy_eq, hinv.nodup, hinv.range, hinv.slots⟩, rfl⟩

/-- The dispatch loop keeps the discipline: it sends the first item of rank `k + 1` from
slot `k`. -/
theorem dispatchLoop_slotInv (g : Game B) (size listLength : Nat) (fuel : Nat) (st : Coord B)
    (t : Track) (hinv : SlotInv size st t) (hstarted : ∀ r ∈ t.started, r ≤ st.k)
    (hbusy : ∀ r ∈ t.busy, r ≤ st.k) :
    ∃ t1, SlotInv size (dispatchLoop g size listLength fuel st) t1 := by
  induction fuel generalizing st t with
  | zero => exact ⟨t, hinv⟩
  | succ fuel ih =>
    simp only [dispatchLoop]
    split
    · rename_i hcond
      obtain ⟨hinv1, hk1⟩ := getNext_slotInv size st t hinv
      have hinv2 := sendWork_slotInv g size (getNext st).2 t (getNext st).2.k
        ((getNext st).2.k + 1) hinv1 rfl (by rw [hk1]; omega)
        (fun h => by have := hbusy _ h; rw [hk1] at this; omega)
        (Or.inl (fun h => by have := hstarted _ h; rw [hk1] at this; omega))
      refine ih _ _ hinv2 ?_ ?_
      · intro r hr
        have hk2 : (sendWork g (getNext st).2.k ((getNext st).2.k + 1) (getNext st).2).k =
            st.k + 1 := by rw [← hk1]; rfl
        rw [hk2]
        rcases List.mem_cons.1 hr with h | h
        · omega
        · have := hstarted r h
          omega
      · intro r hr
        have hk2 : (sendWork g (getNext st).2.k ((getNext st).2.k + 1) (getNext st).2).k =
            st.k + 1 := by rw [← hk1]; rfl
        rw [hk2]
        rcases List.mem_append.1 hr with h | h
        · have := hbusy r h
          omega
        · rw [List.mem_singleton] at h
          omega
    · exact ⟨t, hinv⟩

/-- The streaming loop keeps the discipline: each item goes to the rank whose reply was
received just before, from the slot of that rank. -/
theorem streamLoop_slotInv (g : Game B) (score : Nat → B → Int) (sched : Nat → Nat)
    (size : Nat) (fuel : Nat) (st st1 : Coord B) (t : Track) (hinv : SlotInv size st t)
    (hrun : streamLoop g score sched fuel st = some st1) :
    ∃ t1, SlotInv size st1 t1 := by
  induction fuel generalizing st t with
  | zero =>
    simp only [streamLoop] at hrun
    split at hrun
    · exact absurd hrun (by simp)
    · cases hrun
      exact ⟨t, (getNext_slotInv size st t hinv).1⟩
  | succ fuel ih =>
    simp only [streamLoop] at hrun
    split at hrun
    · cases hrecv : recvEval score sched (getNext st).2 with
      | none => simp [hrecv] at hrun
      | some p =>
        obtain ⟨r, st2⟩ := p
        simp only [hrecv] at hrun
        obtain ⟨hinv2, hidle, h1, h2⟩ := recvEval_slotInv score sched size (getNext st).2 st2 t r
          (getNext_slotInv size st t hinv).1 hrecv
        have hinv3 := sendWork_slotInv g size st2 _ (r.source - 1) r.source hinv2 (by omega) h2
          hidle (Or.inr rfl)
        exact ih _ _ hinv3 hrun
    · cases hrun
      exact ⟨t, (getNext_slotInv size st t hinv).1⟩

/-- The drain loop keeps the discipline: it only receives. -/
theorem drainLoop_slotInv (score : Nat → B → Int) (sched : Nat → Nat) (size listLength : Nat)
    (fuel : Nat) (st st1 : Coord B) (t : Track) (hinv : SlotInv size st t)
    (hrun : drainLoop score sched listLength fuel st = some st1) :
    ∃ t1, SlotInv size st1 t1 := by
  induction fuel generalizing st t with
  | zero =>
    simp only [drainLoop] at hrun
    split at hrun
    · exact absurd hrun (by simp)
    · cases hrun
      exact ⟨t, hinv⟩
  | succ fuel ih =>
    simp only [drainLoop] at hrun
    split at hrun
    · cases hrecv : recvEval score sched st with
      | none => simp [hrecv] at hrun
      | some p =>
        obtain ⟨r, st2⟩ := p
        simp only [hrecv] at hrun
        exact ih _ _ (recvEval_slotInv score sched size st st2 t r hinv hrecv).1 hrun
    · cases hrun
      exact ⟨t, hinv⟩

theorem track_sends (t : Track) (l : List (Nat × Nat)) :
    ∃ last, (l.map (fun p => (CEv.send p.1 p.2 : CEv B))).foldl trackStep (some t) =
      some ⟨t.busy, t.started, last⟩ := by
  induction l generalizing t with
  | nil => exact ⟨t.last, rfl⟩
  | cons p l ih =>
    obtain ⟨last, h⟩ := ih ⟨t.busy, t.started, none⟩
    exact ⟨last, by simpa [List.foldl, trackStep] using h⟩

theorem slotsOk_sends (size : Nat) (l : List (Nat × Nat)) :
    slotsOk size (l.map (fun p => (CEv.send p.1 p.2 : CEv B))) = true := by
  induction l with
  | nil => rfl
  | cons p l ih => simpa [slotsOk] using ih

/-- From a state whose busy ranks are pairwise different and in range, a successful scan
of a log with good slots ends in such a state. -/
theorem track_from (size : Nat) (l : List (CEv B)) (t0 t : Track)
    (h : l.foldl trackStep (some t0) = some t) (hs : slotsOk size l = true)
    (hn : t0.busy.Nodup) (hr : ∀ r ∈ t0.busy, 1 ≤ r ∧ r ≤ size - 1) :
    t.busy.Nodup ∧ ∀ r ∈ t.busy, 1 ≤ r ∧ r ≤ size - 1 := by
  induction l generalizing t0 with
  | nil =>
    simp only [List.foldl] at h
    cases h
    exact ⟨hn, hr⟩
  | cons e l ih =>
    simp only [List.foldl] at h
    cases hstep : trackStep (some t0) e with
    | none =>
      rw [hstep, trackStep_foldl_none] at h
      exact absurd h (by simp)
    | some t1 =>
      rw [hstep] at h
      cases e with
      | isend slot buf dest tag =>
        simp only [slotsOk, Bool.and_eq_true, decide_eq_true_eq] at hs
        simp only [trackStep] at hstep
        split at hstep
        · exact absurd hstep (by simp)
        · rename_i hidle
          split at hstep
          · exact absurd hstep (by simp)
          · split at hstep
            · exact absurd hstep (by simp)
            · cases hstep
              refine ih _ h hs.2 ?_ ?_
              · rw [List.nodup_append]
                refine ⟨hn, List.nodup_singleton _, ?_⟩
                intro a ha hb
                rw [List.mem_singleton] at hb
                subst hb
                exact hidle ha
              · intro r hr2
                rcases List.mem_append.1 hr2 with h2 | h2
                · exact hr r h2
                · rw [List.mem_singleton] at h2
                  subst h2
                  omega
      | recv ev source tag =>
        simp only [slotsOk] at hs
        simp only [trackStep] at hstep
        split at hstep
        · cases hstep
          exact ih _ h hs (List.Nodup.erase _ hn) (fun r hr2 => hr r (List.mem_of_mem_erase hr2))
        · exact absurd hstep (by simp)
      | send dest tag =>
        simp only [slotsOk] at hs
        simp only [trackStep] at hstep
        cases hstep
        exact ih _ h hs hn hr

/-! ## C3, C4: selection and protocol completeness of the coordinator -/

/-- C3: with at least one worker (`size >= 2`), at least one first-ply move and replies that
carry the tag of their request and the evaluation `e k` for tag `k` (each above
`-9999999`), for every order of arrival the search branch returns and chooses the `j`-th
generated move, `j` being the first index at which `e` is maximal; `eval_vector` ends up
as `e 0 .. e (N-1)` and `FirstLayerMoves` as the generated move list. -/
theorem coordinator_selects_first_maximum (g : Game B) (e : Nat → Int) (sched : Nat → Nat)
    (size : Nat) (stray : Stray) (b : B) (hsize : 2 ≤ size)
    (hN : 1 ≤ (g.generateMoves b).length)
    (he : ∀ i, i < (g.generateMoves b).length → -9999999 < e i) :
    ∃ j mj st, coordinatorSearch g (fun k _ => e k) sched size stray b = some (mj, st) ∧
      (g.generateMoves b)[j]? = some mj ∧
      (∀ i, i < (g.generateMoves b).length → e i ≤ e j) ∧
      (∀ i, i < j → e i < e j) ∧
      st.eval_vector = (List.range (g.generateMoves b).length).map e ∧
      st.FirstLayerMoves = g.generateMoves b :=
  coordinatorSearch_spec g (fun k _ => e k) sched size stray b hsize hN he

theorem coordinator_selects_first_maximum_witness :
    (2 ≤ 3 ∧ 1 ≤ (wideGame.generateMoves []).length ∧
      ∀ i, i < (wideGame.generateMoves []).length →
        -9999999 < (fun i : Nat => if i = 3 ∨ i = 5 then (10 : Int) else 1) i) ∧
    ∃ j mj st, coordinatorSearch wideGame
        (fun k _ => (fun i : Nat => if i = 3 ∨ i = 5 then (10 : Int) else 1) k)
        (fun n => n) 3 straySample [] = some (mj, st) ∧
      (wideGame.generateMoves [])[j]? = some mj ∧
      (∀ i, i < (wideGame.generateMoves []).length →
        (fun i : Nat => if i = 3 ∨ i = 5 then (10 : Int) else 1) i ≤
          (fun i : Nat => if i = 3 ∨ i = 5 then (10 : Int) else 1) j) ∧
      (∀ i, i < j → (fun i : Nat => if i = 3 ∨ i = 5 then (10 : Int) else 1) i <
          (fun i : Nat => if i = 3 ∨ i = 5 then (10 : Int) else 1) j) ∧
      st.eval_vector = (List.range (wideGame.generateMoves []).length).map
        (fun i : Nat => if i = 3 ∨ i = 5 then (10 : Int) else 1) ∧
      st.FirstLayerMoves = wideGame.generateMoves [] :=
  ⟨⟨by decide, by decide, by decide⟩,
    coordinator_selects_first_maximum wideGame
      (fun i : Nat => if i = 3 ∨ i = 5 then (10 : Int) else 1) (fun n => n) 3 straySample []
      (by decide) (by decide) (by decide)⟩

/-- C4: with at least one worker (`size >= 2`, `W = size - 1`), for every number `N >= 0` of
generated moves and every order of arrival the communication part returns, and its log is
a first part without blocking send, holding the `N` work dispatches with tags
`0, 1, .., N-1` in this order and exactly `N` receives, followed by exactly the `W`
terminate messages `(rank i, tag 1000)` for `i = 1 .. W`; nothing is outstanding at the
end. -/
theorem coordinator_protocol_complete (g : Game B) (score : Nat → B → Int)
    (sched : Nat → Nat) (size : Nat) (stray : Stray) (b : B) (hsize : 2 ≤ size) :
    ∃ st work, coordinatorLoop g score sched size stray b = some st ∧
      st.log = work ++ (List.range (size - 1)).map (fun i => CEv.send (i + 1) 1000) ∧
      isendTags work = List.range (g.generateMoves b).length ∧
      recvCount work = (g.generateMoves b).length ∧
      sendDests work = [] ∧
      sendDests st.log = (List.range (size - 1)).map (fun i => (i + 1, 1000)) ∧
      st.pending = [] ∧ st.recieved_evals = (g.generateMoves b).length ∧
      st.k = (g.generateMoves b).length := by
  obtain ⟨st, list, hrun, hinv, hk, hrec, hp⟩ :=
    coordinatorLoop_inv g score sched size stray b hsize
  have hterm : ∀ n : Nat, sendDests ((List.range n).map (fun i => (CEv.send (i + 1) 1000 : CEv B)))
      = (List.range n).map (fun i => (i + 1, 1000)) := by
    intro n
    induction n with
    | zero => rfl
    | succ n ih => simp [List.range_succ, sendDests_append, ih, sendDests]
  refine ⟨terminateWorkers size st, st.log, hrun, rfl, ?_, ?_, hinv.log_send, ?_, hp, hrec, hk⟩
  · rw [hinv.log_tags, hk]
  · rw [hinv.log_recv, hrec]
  · show sendDests (st.log ++ _) = _
    rw [sendDests_append, hinv.log_send, hterm]
    rfl

theorem coordinator_protocol_complete_witness :
    2 ≤ 3 ∧ ∃ st work, coordinatorLoop wideGame (workerScore sampleWorker) (fun n => 2 * n) 3
        straySample [] = some st ∧
      st.log = work ++ (List.range (3 - 1)).map (fun i => CEv.send (i + 1) 1000) ∧
      isendTags work = List.range (wideGame.generateMoves []).length ∧
      recvCount work = (wideGame.generateMoves []).length ∧
      sendDests work = [] ∧
      sendDests st.log = (List.range (3 - 1)).map (fun i => (i + 1, 1000)) ∧
      st.pending = [] ∧ st.recieved_evals = (wideGame.generateMoves []).length ∧
      st.k = (wideGame.generateMoves []).length :=
  ⟨by decide, coordinator_protocol_complete wideGame (workerScore sampleWorker)
    (fun n => 2 * n) 3 straySample [] (by decide)⟩

/-! ## C2: coordinator path against single-process path -/

theorem snapshots_undo (g : Game B) (hundo : ∀ b m, g.takeBack (g.playMove b m) = b)
    (list : List Move) (b : B) : snapshots g list b = list.map (g.playMove b) := by
  induction list with
  | nil => rfl
  | cons m list ih => simp [snapshots, hundo, ih]

/-- C2 (as stated, refuted): on the sample tree with max depth 1, two workers and the worker
loop running the same strategy, the single-process path chooses move `0` and the
coordinator path chooses move `1`. -/
theorem coordinator_differs_from_single_process :
    (receivedSingle sampleGame 1 0 ⟨false, 0⟩ []).m = pathMove 0 ∧
      (receivedCoordinator sampleGame isElementSample
          (workerScore (minmaxWorker sampleGame (fun _ => true) 1 0)) (fun _ => 0) 3
          Color.color1 straySample ⟨false, 0⟩ []).map (fun r => r.m) = some (pathMove 1) ∧
      (minimax_eval sampleGame 1 0 (pathMove 0) []).eval = 2 ∧
      (minimax_eval sampleGame 1 0 (pathMove 1) []).eval = 0 ∧
      workerScore (minmaxWorker sampleGame (fun _ => true) 1 0) 0
        (sampleGame.playMove [] (pathMove 0)) = -3 ∧
      workerScore (minmaxWorker sampleGame (fun _ => true) 1 0) 1
        (sampleGame.playMove [] (pathMove 1)) = 0 := by
  decide

/-- C2 (amended): for a board on which `takeBack` undoes `playMove`, with at least one move,
opening mode inactive and at least one worker, if the reply `processWork` computes for the
position after each first-ply move `m` equals `minimax_eval(0, m)` and these values exceed
`minEvaluation()` and `-9999999`, then for every order of arrival the coordinator path
returns and chooses the same move as the single-process path. -/
theorem coordinator_agrees_with_single_process (g : Game B)
    (hundo : ∀ b m, g.takeBack (g.playMove b m) = b) (w : Worker B)
    (isElement : List Move → Move → Bool) (maxDepth stale : Int) (sched : Nat → Nat)
    (size : Nat) (myColor : Color) (stray : Stray) (gl : Globals) (b : B)
    (hsize : 2 ≤ size) (hN : 1 ≤ (g.generateMoves b).length) (hinactive : gl.opening = false)
    (hagree : ∀ (k : Nat) (m : Move), (g.generateMoves b)[k]? = some m →
      workerScore w k (g.playMove b m) = (minimax_eval g maxDepth 0 m b).eval)
    (hmin : ∀ m ∈ g.generateMoves b, g.minEvaluation < (minimax_eval g maxDepth 0 m b).eval)
    (hlow : ∀ m ∈ g.generateMoves b, -9999999 < (minimax_eval g maxDepth 0 m b).eval) :
    ∃ r, receivedCoordinator g isElement (workerScore w) sched size myColor stray gl b = some r ∧
      r.searched = true ∧ r.m = (receivedSingle g maxDepth stale gl b).m := by
  have hv : ∀ i, i < (g.generateMoves b).length →
      workerScore w i ((snapshots g (g.generateMoves b) b).getD i b) =
        (minimax_eval g maxDepth 0 ((g.generateMoves b).getD i noMove) b).eval := by
    intro i hi
    have hm : (g.generateMoves b)[i]? = some ((g.generateMoves b).getD i noMove) := by
      rw [List.getD_eq_getElem _ _ hi]
      exact List.getElem?_eq_getElem hi
    rw [← hagree i _ hm, snapshots_undo g hundo]
    congr 1
    rw [List.getD_eq_getElem _ _ (by simpa using hi), List.getD_eq_getElem _ _ hi]
    simp
  have hmem : ∀ i, i < (g.generateMoves b).length →
      (g.generateMoves b).getD i noMove ∈ g.generateMoves b := by
    intro i hi
    rw [List.getD_eq_getElem _ _ hi]
    exact List.getElem_mem _
  obtain ⟨jc, mc, st, hrun, hjc, hcmax, hcfirst, _, _⟩ :=
    coordinatorSearch_spec g (workerScore w) sched size stray b hsize hN
      (fun i hi => by rw [hv i hi]; exact hlow _ (hmem i hi))
  obtain ⟨js, ms, hjs, hfound, hsmax, hsfirst⟩ :=
    searchBestMove_lastFound g hundo maxDepth b hN hmin
  have hjcN : jc < (g.generateMoves b).length := by
    rcases List.getElem?_eq_some.1 hjc with ⟨h, _⟩
    exact h
  have hjsN : js < (g.generateMoves b).length := by
    rcases List.getElem?_eq_some.1 hjs with ⟨h, _⟩
    exact h
  have hgc : (g.generateMoves b).getD jc noMove = mc := by
    rcases List.getElem?_eq_some.1 hjc with ⟨h, he⟩
    rw [List.getD_eq_getElem _ _ h]; exact he
  have hgs : (g.generateMoves b).getD js noMove = ms := by
    rcases List.getElem?_eq_some.1 hjs with ⟨h, he⟩
    rw [List.getD_eq_getElem _ _ h]; exact he
  have hjj : jc = js := by
    rcases Nat.lt_trichotomy jc js with h | h | h
    · have h1 := hsfirst jc mc h hjc
      have h2 := hcmax js hjsN
      rw [hv js hjsN, hv jc hjcN, hgc, hgs] at h2
      omega
    · exact h
    · have h1 := hcfirst js h
      rw [hv js hjsN, hv jc hjcN, hgc, hgs] at h1
      have h2 := hsmax mc (List.getElem?_mem hjc)
      omega
  have hmm : mc = ms := by
    rw [hjj, hjs] at hjc
    exact (Option.some.inj hjc).symm
  have hopen := openingStep_inactive isElement myColor stray (g.generateMoves b) noMove gl
    hinactive
  refine ⟨drawMove g gl mc st.board st.log true none, ?_, ?_, ?_⟩
  · simp [receivedCoordinator, hopen, hinactive, hrun]
  · simp only [drawMove]; split <;> rfl
  · have hsingle : (receivedSingle g maxDepth stale gl b).m = ms := by
      simp only [receivedSingle, bestMove, hfound, drawMove]
      split <;> rfl
    rw [hsingle, ← hmm]
    simp only [drawMove]; split <;> rfl

theorem coordinator_agrees_with_single_process_witness :
    (2 ≤ 3 ∧ 1 ≤ (mirrorGame.generateMoves []).length ∧
      mirrorGame.generateMoves [] = [pathMove 0, pathMove 1] ∧
      workerScore mirrorWorker 0 (mirrorGame.playMove [] (pathMove 0)) =
        (minimax_eval mirrorGame 0 0 (pathMove 0) []).eval ∧
      workerScore mirrorWorker 1 (mirrorGame.playMove [] (pathMove 1)) =
        (minimax_eval mirrorGame 0 0 (pathMove 1) []).eval) ∧
    ∃ r, receivedCoordinator mirrorGame isElementSample (workerScore mirrorWorker) (fun n => n)
        3 Color.color1 straySample ⟨false, 0⟩ [] = some r ∧
      r.searched = true ∧ r.m = (receivedSingle mirrorGame 0 0 ⟨false, 0⟩ []).m :=
  ⟨⟨by decide, by decide, by decide, by decide, by decide⟩,
    coordinator_agrees_with_single_process mirrorGame (fun _ _ => rfl) mirrorWorker
      isElementSample 0 0 (fun n => n) 3 Color.color1 straySample ⟨false, 0⟩ [] (by decide)
      (by decide) rfl
      (by
        intro k m hk
        have hmem : m ∈ mirrorGame.generateMoves [] := List.getElem?_mem hk
        have hk2 : k < 2 := by
          rcases List.getElem?_eq_some.1 hk with ⟨h, _⟩
          simpa [mirrorGame, pathGame] using h
        interval_cases k
        · have : m = pathMove 0 := by
            have : (mirrorGame.generateMoves [])[0]? = some (pathMove 0) := by decide
            rw [this] at hk; exact (Option.some.inj hk).symm
          subst this; decide
        · have : m = pathMove 1 := by
            have : (mirrorGame.generateMoves [])[1]? = some (pathMove 1) := by decide
            rw [this] at hk; exact (Option.some.inj hk).symm
          subst this; decide)
      (by decide) (by decide)⟩

/-! ## C9: deactivation of the opening mode -/

/-- C9: over every sequence of move requests of the coordinator from process start, for
every content of the cell behind the opening tables: once `opening` is false it is false
after all later requests; while it is true the counter equals the number of requests so
far (at most 5) and the next request makes it false exactly if the scripted move read for
it is not in the move list or the counter has reached 5; at most 5 requests are answered
with a scripted move; and from the 6th request on `opening` is false after the opening
block, so the request runs the search branch, which returns a move. -/
theorem opening_deactivation (g : Game B) (isElement : List Move → Move → Bool)
    (score : Nat → B → Int) (sched : Nat → Nat) (size : Nat) (myColor : Color)
    (stray : Stray) (requests later : List (List Move)) (list : List Move) (b : B)
    (hsize : 2 ≤ size) :
    ((openingRun isElement myColor stray requests globalsInit).opening = false →
      (openingRun isElement myColor stray (requests ++ later) globalsInit).opening = false) ∧
    ((openingRun isElement myColor stray requests globalsInit).opening = true →
      (openingRun isElement myColor stray requests globalsInit).count_moves = requests.length ∧
      requests.length ≤ 5 ∧
      ((openingRun isElement myColor stray (requests ++ [list]) globalsInit).opening = false ↔
        (isElement list ((openings myColor).getD requests.length stray.tableCell) = false ∨
          5 ≤ requests.length))) ∧
    scriptedCount isElement myColor stray requests globalsInit ≤ 5 ∧
    (5 ≤ requests.length →
      (openingRun isElement myColor stray (requests ++ [g.generateMoves b]) globalsInit).opening
        = false ∧
      ∃ r, receivedCoordinator g isElement score sched size myColor stray
          (openingRun isElement myColor stray requests globalsInit) b = some r ∧
        r.searched = true ∧ r.globals.opening = false) := by
  refine ⟨?_, ?_, ?_, ?_⟩
  · intro h
    rw [openingRun_append, openingRun_inactive _ _ _ _ _ h]
    exact h
  · intro h
    obtain ⟨_, hcount, hbound⟩ := openingRun_active isElement myColor stray requests _ h
    have hc : (openingRun isElement myColor stray requests globalsInit).count_moves =
        requests.length := by
      rw [hcount]; simp [globalsInit]
    have hlen : requests.length ≤ 5 := by
      cases requests with
      | nil => simp
      | cons l rest =>
        have := hbound (List.cons_ne_nil _ _)
        simpa [globalsInit] using this
    refine ⟨hc, hlen, ?_⟩
    rw [openingRun_append]
    simp only [openingRun]
    have hiff := openingStep_opening isElement myColor stray list noMove
      (openingRun isElement myColor stray requests globalsInit)
    rw [hc] at hiff
    constructor
    · intro hfalse
      by_contra hcon
      have hcon2 : isElement list ((openings myColor).getD requests.length stray.tableCell)
          = true ∧ requests.length < 5 := by
        constructor
        · cases hx : isElement list ((openings myColor).getD requests.length stray.tableCell)
          · exact absurd (Or.inl hx) hcon
          · rfl
        · by_contra hge
          exact hcon (Or.inr (by omega))
      rw [hiff.2 ⟨h, hcon2.2, hcon2.1⟩] at hfalse
      exact Bool.noConfusion hfalse
    · intro hor
      cases hx : (openingStep isElement myColor stray list noMove
          (openingRun isElement myColor stray requests globalsInit)).globals.opening
      · rfl
      · obtain ⟨_, hlt, hel⟩ := hiff.1 hx
        rcases hor with h1 | h1
        · rw [h1] at hel; exact Bool.noConfusion hel
        · omega
  · have := scriptedCount_le isElement myColor stray requests globalsInit
    simp [globalsInit] at this
    exact this
  · intro hlen
    have hstep : (openingStep isElement myColor stray (g.generateMoves b) noMove
        (openingRun isElement myColor stray requests globalsInit)).globals.opening = false := by
      cases hx : (openingStep isElement myColor stray (g.generateMoves b) noMove
          (openingRun isElement myColor stray requests globalsInit)).globals.opening
      · rfl
      · obtain ⟨hopen, hlt, _⟩ := (openingStep_opening isElement myColor stray _ _ _).1 hx
        obtain ⟨_, hcount, _⟩ := openingRun_active isElement myColor stray requests _ hopen
        rw [hcount] at hlt
        simp [globalsInit] at hlt
        omega
    refine ⟨by rw [openingRun_append]; exact hstep, ?_⟩
    obtain ⟨m, st, hrun⟩ := coordinatorSearch_returns g score sched size stray b hsize
    refine ⟨drawMove g (openingStep isElement myColor stray (g.generateMoves b) noMove
        (openingRun isElement myColor stray requests globalsInit)).globals m st.board st.log true
        (openingStep isElement myColor stray (g.generateMoves b) noMove
        (openingRun isElement myColor stray requests globalsInit)).tableRead, ?_, ?_, ?_⟩
    · simp [receivedCoordinator, hstep, hrun]
    · simp only [drawMove]; split <;> rfl
    · simp only [drawMove]; split <;> exact hstep

theorem opening_deactivation_witness :
    (2 ≤ 3 ∧ openingRun isElementSample Color.color1 straySample
        (List.replicate 5 openings_O) globalsInit = ⟨true, 5⟩ ∧
      scriptedCount isElementSample Color.color1 straySample
        (List.replicate 5 openings_O ++ [openings_O]) globalsInit = 5 ∧
      isElementSample (wideGame.generateMoves []) move1O = true) ∧
    (((openingRun isElementSample Color.color1 straySample (List.replicate 5 openings_O)
          globalsInit).opening = false →
      (openingRun isElementSample Color.color1 straySample
          (List.replicate 5 openings_O ++ [openings_O]) globalsInit).opening = false) ∧
    ((openingRun isElementSample Color.color1 straySample (List.replicate 5 openings_O)
          globalsInit).opening = true →
      (openingRun isElementSample Color.color1 straySample (List.replicate 5 openings_O)
          globalsInit).count_moves = (List.replicate 5 openings_O).length ∧
      (List.replicate 5 openings_O).length ≤ 5 ∧
      ((openingRun isElementSample Color.color1 straySample
          (List.replicate 5 openings_O ++ [openings_O]) globalsInit).opening = false ↔
        (isElementSample openings_O ((openings Color.color1).getD
            (List.replicate 5 openings_O).length straySample.tableCell) = false ∨
          5 ≤ (List.replicate 5 openings_O).length))) ∧
    scriptedCount isElementSample Color.color1 straySample (List.replicate 5 openings_O)
      globalsInit ≤ 5 ∧
    (5 ≤ (List.replicate 5 openings_O).length →
      (openingRun isElementSample Color.color1 straySample
          (List.replicate 5 openings_O ++ [wideGame.generateMoves []]) globalsInit).opening
        = false ∧
      ∃ r, receivedCoordinator wideGame isElementSample (workerScore sampleWorker) (fun n => n) 3
          Color.color1 straySample
          (openingRun isElementSample Color.color1 straySample (List.replicate 5 openings_O)
            globalsInit) [] = some r ∧
        r.searched = true ∧ r.globals.opening = false)) :=
  ⟨⟨by decide, by decide, by decide, by decide⟩,
    opening_deactivation wideGame isElementSample (workerScore sampleWorker) (fun n => n) 3
      Color.color1 straySample (List.replicate 5 openings_O) [openings_O] openings_O []
      (by decide)⟩

/-! ## C10: a position without legal move -/

/-- C10 (the code at the failing input): when the move list is empty and opening mode is
inactive, the search branch sends no work, sends the terminate messages, leaves
`bestj = 0` and reads `FirstLayerMoves[0]` behind the empty array: the move `m` is the
content of that cell, not the "no move" value, and it is played unless its kind happens to
be `Move::none`. -/
theorem no_legal_move_reads_behind_array (g : Game B) (isElement : List Move → Move → Bool)
    (score : Nat → B → Int) (sched : Nat → Nat) (size : Nat) (myColor : Color)
    (stray : Stray) (gl : Globals) (b : B) (hempty : g.generateMoves b = [])
    (hinactive : gl.opening = false) :
    receivedCoordinator g isElement score sched size myColor stray gl b =
      some (drawMove g gl stray.moveCell b
        ((List.range (size - 1)).map (fun i => CEv.send (i + 1) 1000)) true none) := by
  simp [receivedCoordinator, openingStep, hinactive, hempty, coordinatorSearch, coordinatorLoop,
    dispatchLoop, streamLoop, drainLoop, getNext, coordInit, terminateWorkers, selectedMove,
    selectBest]

theorem no_legal_move_reads_behind_array_witness :
    (sampleGame.generateMoves [0, 0, 0] = [] ∧ straySample.moveCell.type ≠ MoveType.none) ∧
      receivedCoordinator sampleGame isElementSample (workerScore sampleWorker) (fun n => n) 3
          Color.color1 straySample ⟨false, 5⟩ [0, 0, 0] =
        some ⟨⟨false, 5⟩, straySample.moveCell, sampleGame.playMove [0, 0, 0] straySample.moveCell,
          [.send 1 1000, .send 2 1000], true, true, none⟩ ∧
      (receivedCoordinator sampleGame isElementSample (workerScore sampleWorker) (fun n => n) 3
          Color.color1 straySample globalsInit [0, 0, 0]).map (fun r => (r.m, r.drawn, r.board)) =
        some (straySample.moveCell, true, [7, 0, 0, 0]) :=
  ⟨by decide,
    no_legal_move_reads_behind_array sampleGame isElementSample (workerScore sampleWorker)
      (fun n => n) 3 Color.color1 straySample ⟨false, 5⟩ [0, 0, 0] (by decide) rfl,
    by decide⟩

/-! ## C11: recursive characterisation of `minimax_eval` -/

/-- The value of a call on a board on which `takeBack` undoes `playMove`: at the depth limit
the raw evaluation after `m`; in the max branch (`depth % 2 == 1` in the source) the
largest of `minEvaluation()` and the values of the children; in the min branch the
smallest of `maxEvaluation()` and the values of the children. -/
theorem minimax_eval_clamped (g : Game B)
    (hundo : ∀ b m, g.takeBack (g.playMove b m) = b) (maxDepth depth : Int) (m : Move) (b : B) :
    (depth >= maxDepth →
      (minimax_eval g maxDepth depth m b).eval = g.evaluate (g.playMove b m)) ∧
    (depth < maxDepth → Int.tmod depth 2 = 1 →
      ((minimax_eval g maxDepth depth m b).eval = g.minEvaluation ∨
        ∃ c ∈ g.generateMoves (g.playMove b m), (minimax_eval g maxDepth depth m b).eval =
          (minimax_eval g maxDepth (depth + 1) c (g.playMove b m)).eval) ∧
      g.minEvaluation ≤ (minimax_eval g maxDepth depth m b).eval ∧
      ∀ c ∈ g.generateMoves (g.playMove b m),
        (minimax_eval g maxDepth (depth + 1) c (g.playMove b m)).eval ≤
          (minimax_eval g maxDepth depth m b).eval) ∧
    (depth < maxDepth → Int.tmod depth 2 ≠ 1 →
      ((minimax_eval g maxDepth depth m b).eval = g.maxEvaluation ∨
        ∃ c ∈ g.generateMoves (g.playMove b m), (minimax_eval g maxDepth depth m b).eval =
          (minimax_eval g maxDepth (depth + 1) c (g.playMove b m)).eval) ∧
      (minimax_eval g maxDepth depth m b).eval ≤ g.maxEvaluation ∧
      ∀ c ∈ g.generateMoves (g.playMove b m),
        (minimax_eval g maxDepth depth m b).eval ≤
          (minimax_eval g maxDepth (depth + 1) c (g.playMove b m)).eval) := by
  refine ⟨?_, ?_, ?_⟩
  · intro h
    rw [minimax_eval_leaf g maxDepth depth m b h]
    rfl
  · intro h hodd
    have hn : ¬ depth >= maxDepth := by omega
    rw [minimax_eval_unfold, if_neg hn, if_pos hodd]
    exact maxLoop_eval _ (minimax_eval_board g hundo maxDepth (depth + 1)) _ _ _
  · intro h heven
    have hn : ¬ depth >= maxDepth := by omega
    rw [minimax_eval_unfold, if_neg hn, if_neg heven]
    exact minLoop_eval _ (minimax_eval_board g hundo maxDepth (depth + 1)) _ _ _

/-- With raw evaluations between `minEvaluation()` and `maxEvaluation()`, every value of
`minimax_eval` lies between them as well. -/
theorem minimax_eval_range (g : Game B) (hundo : ∀ b m, g.takeBack (g.playMove b m) = b)
    (hrange : ∀ b, g.minEvaluation ≤ g.evaluate b ∧ g.evaluate b ≤ g.maxEvaluation)
    (maxDepth : Int) (n : Nat) (depth : Int) (hn : (maxDepth - depth).toNat ≤ n) (m : Move)
    (b : B) :
    g.minEvaluation ≤ (minimax_eval g maxDepth depth m b).eval ∧
      (minimax_eval g maxDepth depth m b).eval ≤ g.maxEvaluation := by
  have hmm : g.minEvaluation ≤ g.maxEvaluation := le_trans (hrange b).1 (hrange b).2
  induction n generalizing depth m b with
  | zero =>
    rw [(minimax_eval_clamped g hundo maxDepth depth m b).1 (by omega)]
    exact hrange _
  | succ n ih =>
    by_cases hge : depth >= maxDepth
    · rw [(minimax_eval_clamped g hundo maxDepth depth m b).1 hge]
      exact hrange _
    · have hlt : depth < maxDepth := by omega
      by_cases hodd : Int.tmod depth 2 = 1
      · obtain ⟨h1, h2, _⟩ := (minimax_eval_clamped g hundo maxDepth depth m b).2.1 hlt hodd
        refine ⟨h2, ?_⟩
        rcases h1 with h1 | ⟨c, _, h1⟩
        · rw [h1]; exact hmm
        · rw [h1]; exact (ih (depth + 1) (by omega) c _).2
      · obtain ⟨h1, h2, _⟩ := (minimax_eval_clamped g hundo maxDepth depth m b).2.2 hlt hodd
        refine ⟨?_, h2⟩
        rcases h1 with h1 | ⟨c, _, h1⟩
        · rw [h1]; exact hmm
        · rw [h1]; exact (ih (depth + 1) (by omega) c _).1

/-- C11: on a board on which `takeBack` undoes `playMove`, with raw evaluations between
`minEvaluation()` and `maxEvaluation()`, for every move `m`, depth `d >= 0` (the search
calls `minimax_eval` with depth `0` and `depth + 1` only) and max depth `D`, with `P1` the
position after `m`: if `d >= D` the result is `evaluate()` of `P1`, with no sign flip; if
`d < D` and `d` is odd the result is the maximum of `minimax_eval(d+1, c)` over the moves
`c` generated from `P1`, and `minEvaluation()` when there are none; if `d < D` and `d` is
even the result is the minimum of these values, and `maxEvaluation()` when there are none. -/
theorem minimax_eval_recursive (g : Game B)
    (hundo : ∀ b m, g.takeBack (g.playMove b m) = b)
    (hrange : ∀ b, g.minEvaluation ≤ g.evaluate b ∧ g.evaluate b ≤ g.maxEvaluation)
    (maxDepth depth : Int) (hdepth : 0 ≤ depth) (m : Move) (b : B) :
    (depth >= maxDepth →
      (minimax_eval g maxDepth depth m b).eval = g.evaluate (g.playMove b m)) ∧
    (depth < maxDepth → depth % 2 = 1 →
      (g.generateMoves (g.playMove b m) = [] →
        (minimax_eval g maxDepth depth m b).eval = g.minEvaluation) ∧
      (g.generateMoves (g.playMove b m) ≠ [] →
        (∃ c ∈ g.generateMoves (g.playMove b m), (minimax_eval g maxDepth depth m b).eval =
          (minimax_eval g maxDepth (depth + 1) c (g.playMove b m)).eval) ∧
        ∀ c ∈ g.generateMoves (g.playMove b m),
          (minimax_eval g maxDepth (depth + 1) c (g.playMove b m)).eval ≤
            (minimax_eval g maxDepth depth m b).eval)) ∧
    (depth < maxDepth → depth % 2 = 0 →
      (g.generateMoves (g.playMove b m) = [] →
        (minimax_eval g maxDepth depth m b).eval = g.maxEvaluation) ∧
      (g.generateMoves (g.playMove b m) ≠ [] →
        (∃ c ∈ g.generateMoves (g.playMove b m), (minimax_eval g maxDepth depth m b).eval =
          (minimax_eval g maxDepth (depth + 1) c (g.playMove b m)).eval) ∧
        ∀ c ∈ g.generateMoves (g.playMove b m),
          (minimax_eval g maxDepth depth m b).eval ≤
            (minimax_eval g maxDepth (depth + 1) c (g.playMove b m)).eval)) := by
  have htmod : Int.tmod depth 2 = depth % 2 := Int.tmod_eq_emod hdepth (by decide)
  have hchild : ∀ c, g.minEvaluation ≤
      (minimax_eval g maxDepth (depth + 1) c (g.playMove b m)).eval ∧
      (minimax_eval g maxDepth (depth + 1) c (g.playMove b m)).eval ≤ g.maxEvaluation :=
    fun c => minimax_eval_range g hundo hrange maxDepth _ (depth + 1) (le_refl _) c _
  refine ⟨(minimax_eval_clamped g hundo maxDepth depth m b).1, ?_, ?_⟩
  · intro hlt hodd
    obtain ⟨h1, h2, h3⟩ := (minimax_eval_clamped g hundo maxDepth depth m b).2.1 hlt
      (by rw [htmod]; exact hodd)
    constructor
    · intro hnil
      rcases h1 with h1 | ⟨c, hc, _⟩
      · exact h1
      · rw [hnil] at hc
        exact absurd hc (List.not_mem_nil c)
    · intro hne
      refine ⟨?_, h3⟩
      rcases h1 with h1 | h1
      · obtain ⟨c, rest, hl⟩ := List.exists_cons_of_ne_nil hne
        have hc : c ∈ g.generateMoves (g.playMove b m) := by rw [hl]; exact List.mem_cons_self _ _
        have hle := h3 c hc
        have hge := (hchild c).1
        exact ⟨c, hc, by omega⟩
      · exact h1
  · intro hlt heven
    obtain ⟨h1, h2, h3⟩ := (minimax_eval_clamped g hundo maxDepth depth m b).2.2 hlt
      (by rw [htmod, heven]; decide)
    constructor
    · intro hnil
      rcases h1 with h1 | ⟨c, hc, _⟩
      · exact h1
      · rw [hnil] at hc
        exact absurd hc (List.not_mem_nil c)
    · intro hne
      refine ⟨?_, h3⟩
      rcases h1 with h1 | h1
      · obtain ⟨c, rest, hl⟩ := List.exists_cons_of_ne_nil hne
        have hc : c ∈ g.generateMoves (g.playMove b m) := by rw [hl]; exact List.mem_cons_self _ _
        have hle := h3 c hc
        have hge := (hchild c).2
        exact ⟨c, hc, by omega⟩
      · exact h1

theorem minimax_eval_recursive_witness :
    ((∀ b m, tinyGame.takeBack (tinyGame.playMove b m) = b) ∧
      (∀ b, tinyGame.minEvaluation ≤ tinyGame.evaluate b ∧
        tinyGame.evaluate b ≤ tinyGame.maxEvaluation) ∧
      (0 : Int) ≤ 1 ∧ (1 : Int) < 2 ∧ (1 : Int) % 2 = 1 ∧ (0 : Int) < 2 ∧ (0 : Int) % 2 = 0 ∧
      tinyGame.generateMoves (tinyGame.playMove [0] (pathMove 1)) ≠ [] ∧
      tinyGame.generateMoves (tinyGame.playMove [0, 0] (pathMove 0)) = [] ∧
      (minimax_eval tinyGame 2 1 (pathMove 1) [0]).eval = 5 ∧
      (minimax_eval tinyGame 2 0 (pathMove 0) []).eval = 5 ∧
      (minimax_eval tinyGame 5 2 (pathMove 0) [0, 0]).eval = 15000) ∧
    ((∃ c ∈ tinyGame.generateMoves (tinyGame.playMove [0] (pathMove 1)),
        (minimax_eval tinyGame 2 1 (pathMove 1) [0]).eval =
          (minimax_eval tinyGame 2 (1 + 1) c (tinyGame.playMove [0] (pathMove 1))).eval) ∧
      ∀ c ∈ tinyGame.generateMoves (tinyGame.playMove [0] (pathMove 1)),
        (minimax_eval tinyGame 2 (1 + 1) c (tinyGame.playMove [0] (pathMove 1))).eval ≤
          (minimax_eval tinyGame 2 1 (pathMove 1) [0]).eval) ∧
    ((∃ c ∈ tinyGame.generateMoves (tinyGame.playMove [] (pathMove 0)),
        (minimax_eval tinyGame 2 0 (pathMove 0) []).eval =
          (minimax_eval tinyGame 2 (0 + 1) c (tinyGame.playMove [] (pathMove 0))).eval) ∧
      ∀ c ∈ tinyGame.generateMoves (tinyGame.playMove [] (pathMove 0)),
        (minimax_eval tinyGame 2 0 (pathMove 0) []).eval ≤
          (minimax_eval tinyGame 2 (0 + 1) c (tinyGame.playMove [] (pathMove 0))).eval) ∧
    (minimax_eval tinyGame 5 2 (pathMove 0) [0, 0]).eval = tinyGame.maxEvaluation ∧
    (minimax_eval tinyGame 2 2 (pathMove 1) [1, 0]).eval =
      tinyGame.evaluate (tinyGame.playMove [1, 0] (pathMove 1)) := by
  have hundo : ∀ (b : List Int) (m : Move), tinyGame.takeBack (tinyGame.playMove b m) = b :=
    fun _ _ => rfl
  have hrange : ∀ b, tinyGame.minEvaluation ≤ tinyGame.evaluate b ∧
      tinyGame.evaluate b ≤ tinyGame.maxEvaluation := by
    intro b
    show (-15000 : Int) ≤ tinyEval b ∧ tinyEval b ≤ 15000
    unfold tinyEval
    split
    · decide
    · split <;> decide
  exact ⟨⟨hundo, hrange, by decide, by decide, by decide, by decide, by decide, by decide,
      by decide, by decide, by decide, by decide⟩,
    ((minimax_eval_recursive tinyGame hundo hrange 2 1 (by decide) (pathMove 1) [0]).2.1
      (by decide) (by decide)).2 (by decide),
    ((minimax_eval_recursive tinyGame hundo hrange 2 0 (by decide) (pathMove 0) []).2.2
      (by decide) (by decide)).2 (by decide),
    ((minimax_eval_recursive tinyGame hundo hrange 5 2 (by decide) (pathMove 0) [0, 0]).2.2
      (by decide) (by decide)).1 (by decide),
    (minimax_eval_recursive tinyGame hundo hrange 2 2 (by decide) (pathMove 1) [1, 0]).1
      (by decide)⟩

/-! ## C12: play / undo discipline -/

/-- C12: on a board on which `takeBack` undoes `playMove`, for every move `m`, depth `d` and
max depth `D` the call `minimax_eval(d, m)` leaves the board as it found it; its events
are `enter d`, `playMove(m)`, then the events of the nested calls (or the single
`evaluate()` of a leaf), then `takeBack`, `finishedNode(d)`, on the leaf, max and min path
alike; hence in the log of every call, and of `searchBestMove`, the numbers of `playMove`
calls, of `takeBack` calls and of `minimax_eval` calls coincide, and `searchBestMove`
leaves the board as it found it. -/
theorem play_undo_discipline (g : Game B) (hundo : ∀ b m, g.takeBack (g.playMove b m) = b)
    (maxDepth depth : Int) (m : Move) (b : B) :
    (minimax_eval g maxDepth depth m b).board = b ∧
    (∃ inner, (minimax_eval g maxDepth depth m b).log =
        [.enter depth, .play m] ++ inner ++ [.back, .finishedNode depth] ∧
      playCount inner = enterCount inner ∧ backCount inner = enterCount inner) ∧
    playCount (minimax_eval g maxDepth depth m b).log =
      enterCount (minimax_eval g maxDepth depth m b).log ∧
    backCount (minimax_eval g maxDepth depth m b).log =
      enterCount (minimax_eval g maxDepth depth m b).log ∧
    (searchBestMove g maxDepth b).board = b ∧
    playCount (searchBestMove g maxDepth b).log = enterCount (searchBestMove g maxDepth b).log ∧
    backCount (searchBestMove g maxDepth b).log =
      enterCount (searchBestMove g maxDepth b).log := by
  have hc := minimax_eval_counts g maxDepth depth m b
  have hs := searchLoop_counts g maxDepth (g.generateMoves b) g.minEvaluation b
  refine ⟨minimax_eval_board g hundo maxDepth depth m b, ?_, hc.1, hc.2,
    searchLoop_board g hundo maxDepth _ _ b, ?_, ?_⟩
  · rw [minimax_eval_unfold]
    split
    · exact ⟨[.evaluate], rfl, rfl, rfl⟩
    · split
      · exact ⟨_, rfl, maxLoop_counts _ (minimax_eval_counts g maxDepth (depth + 1)) _ _ _⟩
      · exact ⟨_, rfl, minLoop_counts _ (minimax_eval_counts g maxDepth (depth + 1)) _ _ _⟩
  · simp [searchBestMove, playCount_append, enterCount_append, playCount, enterCount, hs.1]
  · simp [searchBestMove, backCount_append, enterCount_append, backCount, enterCount, hs.2]

theorem play_undo_discipline_witness :
    ((∀ b m, sampleGame.takeBack (sampleGame.playMove b m) = b) ∧
      playCount (minimax_eval sampleGame 2 0 (pathMove 0) []).log = 7 ∧
      backCount (minimax_eval sampleGame 2 0 (pathMove 0) []).log = 7 ∧
      enterCount (minimax_eval sampleGame 2 0 (pathMove 0) []).log = 7) ∧
    ((minimax_eval sampleGame 2 0 (pathMove 0) []).board = [] ∧
    (∃ inner, (minimax_eval sampleGame 2 0 (pathMove 0) []).log =
        [.enter 0, .play (pathMove 0)] ++ inner ++ [.back, .finishedNode 0] ∧
      playCount inner = enterCount inner ∧ backCount inner = enterCount inner) ∧
    playCount (minimax_eval sampleGame 2 0 (pathMove 0) []).log =
      enterCount (minimax_eval sampleGame 2 0 (pathMove 0) []).log ∧
    backCount (minimax_eval sampleGame 2 0 (pathMove 0) []).log =
      enterCount (minimax_eval sampleGame 2 0 (pathMove 0) []).log ∧
    (searchBestMove sampleGame 2 []).board = [] ∧
    playCount (searchBestMove sampleGame 2 []).log =
      enterCount (searchBestMove sampleGame 2 []).log ∧
    backCount (searchBestMove sampleGame 2 []).log =
      enterCount (searchBestMove sampleGame 2 []).log) :=
  ⟨⟨fun _ _ => rfl, by decide, by decide, by decide⟩,
    play_undo_discipline sampleGame (fun _ _ => rfl) 2 0 (pathMove 0) []⟩

/-! ## C13: one outstanding work item per worker -/

/-- The communication part keeps the discipline up to its end, where no rank is busy. -/
theorem coordinatorLoop_slotInv (g : Game B) (score : Nat → B → Int) (sched : Nat → Nat)
    (size : Nat) (stray : Stray) (b : B) (hsize : 2 ≤ size) :
    ∃ st t, coordinatorLoop g score sched size stray b = some st ∧
      track st.log = some t ∧ t.busy = [] ∧ slotsOk size st.log = true := by
  obtain ⟨st, _, hrun, _, _, _, hp⟩ := coordinatorLoop_inv g score sched size stray b hsize
  obtain ⟨t1, hinv1⟩ := dispatchLoop_slotInv g size (g.generateMoves b).length
    (g.generateMoves b).length (coordInit g stray b) _ (coordInit_slotInv g size stray b)
    (by simp) (by simp)
  have hrun0 := hrun
  simp only [coordinatorLoop] at hrun
  cases h2 : streamLoop g score sched
      (dispatchLoop g size (g.generateMoves b).length (g.generateMoves b).length
        (coordInit g stray b)).list.length
      (dispatchLoop g size (g.generateMoves b).length (g.generateMoves b).length
        (coordInit g stray b)) with
  | none => simp [h2] at hrun
  | some st2 =>
    simp only [h2] at hrun
    cases h3 : drainLoop score sched (g.generateMoves b).length (g.generateMoves b).length st2 with
    | none => simp [h3] at hrun
    | some st3 =>
      simp only [h3, Option.some.injEq] at hrun
      obtain ⟨t2, hinv2⟩ := streamLoop_slotInv g score sched size _ _ st2 t1 hinv1 h2
      obtain ⟨t3, hinv3⟩ := drainLoop_slotInv score sched size _ _ st2 st3 t2 hinv2 h3
      have hp3 : st3.pending = [] := by
        have := congrArg (fun s => s.pending) hrun
        simpa [terminateWorkers, hp] using this
      obtain ⟨last, hsends⟩ := track_sends (B := B) t3
        ((List.range (size - 1)).map (fun i => (i + 1, 1000)))
      have hmap : ((List.range (size - 1)).map (fun i => (i + 1, 1000))).map
          (fun p => (CEv.send p.1 p.2 : CEv B)) =
          (List.range (size - 1)).map (fun i => CEv.send (i + 1) 1000) := by
        simp [List.map_map, Function.comp]
      refine ⟨terminateWorkers size st3, ⟨t3.busy, t3.started, last⟩, ?_, ?_, ?_, ?_⟩
      · rw [hrun0, hrun]
      · show track (st3.log ++ _) = _
        rw [track_append, hinv3.run, ← hmap, hsends]
      · show t3.busy = []
        rw [hinv3.busy_eq, hp3]
        rfl
      · show slotsOk size (st3.log ++ _) = true
        rw [slotsOk_append, hinv3.slots, ← hmap, slotsOk_sends]
        rfl

/-- C13: with at least one worker (`size >= 2`), for every number of moves and every order
of arrival in which a reply answers dispatched work, the communication part returns and
the scan of its log succeeds at every point (after every initial part `l1` of the log):
no work is dispatched to a rank that still has an unanswered item, so the busy ranks are
pairwise different and lie in `1 .. size - 1`; every dispatch to a rank that had work
before directly follows the receive of a reply from that rank; every dispatch to rank
`dest` uses buffer slot `dest - 1`; and at the end no rank is busy. -/
theorem one_outstanding_item_per_worker (g : Game B) (score : Nat → B → Int)
    (sched : Nat → Nat) (size : Nat) (stray : Stray) (b : B) (hsize : 2 ≤ size) :
    ∃ st, coordinatorLoop g score sched size stray b = some st ∧
      slotsOk size st.log = true ∧
      (∃ t, track st.log = some t ∧ t.busy = []) ∧
      ∀ l1 l2, st.log = l1 ++ l2 →
        ∃ t, track l1 = some t ∧ t.busy.Nodup ∧ ∀ r ∈ t.busy, 1 ≤ r ∧ r ≤ size - 1 := by
  obtain ⟨st, t, hrun, htrack, hbusy, hslots⟩ :=
    coordinatorLoop_slotInv g score sched size stray b hsize
  refine ⟨st, hrun, hslots, ⟨t, htrack, hbusy⟩, ?_⟩
  intro l1 l2 hsplit
  rw [hsplit, track_append] at htrack
  rw [hsplit, slotsOk_append, Bool.and_eq_true] at hslots
  cases h1 : track l1 with
  | none =>
    rw [h1, trackStep_foldl_none] at htrack
    exact absurd htrack (by simp)
  | some t1 =>
    have := track_from size l1 ⟨[], [], none⟩ t1 h1 hslots.1 List.nodup_nil (by simp)
    exact ⟨t1, rfl, this⟩

theorem one_outstanding_item_per_worker_witness :
    (2 ≤ 3 ∧
      (coordinatorLoop wideGame (workerScore sampleWorker) (fun n => 2 * n + 1) 3 straySample
        []).map (fun st => ((track st.log).map (fun t => t.busy), slotsOk 3 st.log,
          isendTags st.log)) =
        some (some [], true, List.range 13)) ∧
    ∃ st, coordinatorLoop wideGame (workerScore sampleWorker) (fun n => 2 * n + 1) 3
        straySample [] = some st ∧
      slotsOk 3 st.log = true ∧
      (∃ t, track st.log = some t ∧ t.busy = []) ∧
      ∀ l1 l2, st.log = l1 ++ l2 →
        ∃ t, track l1 = some t ∧ t.busy.Nodup ∧ ∀ r ∈ t.busy, 1 ≤ r ∧ r ≤ 3 - 1 :=
  ⟨⟨by decide, by decide⟩,
    one_outstanding_item_per_worker wideGame (workerScore sampleWorker) (fun n => 2 * n + 1) 3
      straySample [] (by decide)⟩

/-- The scan rejects logs that break the discipline: a second item for a busy rank, a slot
other than `dest - 1`, and a further item for a rank that does not directly follow the
reply of that rank. -/
theorem track_rejects_violations :
    (track [CEv.isend 0 ([] : List Int) 1 0, CEv.isend 0 [] 1 1]).isNone = true ∧
      (track [CEv.isend 1 ([] : List Int) 1 0]).isNone = true ∧
      (track [CEv.isend 0 ([] : List Int) 1 0, CEv.isend 1 [] 2 1, CEv.recv 5 1 0,
        CEv.recv 5 2 1, CEv.isend 0 [] 1 2]).isNone = true ∧
      (track [CEv.isend 0 ([] : List Int) 1 0, CEv.isend 1 [] 2 1, CEv.recv 5 1 0,
        CEv.isend 0 [] 1 2]).isSome = true := by
  decide

/-! ## C14: the index read from the opening tables -/

/-- C14 (the code at the failing input): after five requests that were each answered with
the scripted move, `opening` is still true and `count_moves` is 5; the opening block of
the sixth request reads the table at index 5, behind its five elements (the move it gets
is the stray cell), and only then the test `count_moves >= 5` deactivates the opening. -/
theorem sixth_request_reads_behind_table :
    openings_O.length = 5 ∧ openings_X.length = 5 ∧
      openingRun isElementSample Color.color1 straySample (List.replicate 5 openings_O)
        globalsInit = ⟨true, 5⟩ ∧
      scriptedCount isElementSample Color.color1 straySample (List.replicate 5 openings_O)
        globalsInit = 5 ∧
      (openingStep isElementSample Color.color1 straySample (wideGame.generateMoves []) noMove
        (openingRun isElementSample Color.color1 straySample (List.replicate 5 openings_O)
          globalsInit)).tableRead = some 5 ∧
      (openingStep isElementSample Color.color1 straySample (wideGame.generateMoves []) noMove
        (openingRun isElementSample Color.color1 straySample (List.replicate 5 openings_O)
          globalsInit)).m = straySample.tableCell ∧
      (openingStep isElementSample Color.color1 straySample (wideGame.generateMoves []) noMove
        (openingRun isElementSample Color.color1 straySample (List.replicate 5 openings_O)
          globalsInit)).globals = ⟨false, 6⟩ ∧
      (receivedCoordinator wideGame isElementSample (workerScore sampleWorker) (fun n => n) 3
        Color.color1 straySample
        (openingRun isElementSample Color.color1 straySample (List.replicate 5 openings_O)
          globalsInit) []).map (fun r => r.tableRead) = some (some 5) ∧
      (openingStep isElementSample Color.color2 straySample openings_X noMove
        (openingRun isElementSample Color.color2 straySample (List.replicate 5 openings_X)
          globalsInit)).tableRead = some 5 := by
  decide

/-- The index read by the opening block in a state reached from process start is the
number of requests so far and never exceeds 5; below 5 requests it is inside the table. -/
theorem opening_table_read_bound (isElement : List Move → Move → Bool) (myColor : Color)
    (stray : Stray) (requests : List (List Move)) (list : List Move) (c : Nat)
    (hread : (openingStep isElement myColor stray list noMove
      (openingRun isElement myColor stray requests globalsInit)).tableRead = some c) :
    c = requests.length ∧ c ≤ 5 := by
  cases hopen : (openingRun isElement myColor stray requests globalsInit).opening with
  | false =>
    rw [openingStep_inactive isElement myColor stray list noMove _ hopen] at hread
    exact absurd hread (by simp)
  | true =>
    rw [openingStep_active isElement myColor stray list noMove _ hopen] at hread
    obtain ⟨_, hcount, hbound⟩ := openingRun_active isElement myColor stray requests _ hopen
    simp only [Option.some.injEq] at hread
    have hc : c = requests.length := by
      rw [← hread, hcount]; simp [globalsInit]
    refine ⟨hc, ?_⟩
    cases requests with
    | nil => simp at hc; omega
    | cons l rest =>
      have := hbound (List.cons_ne_nil _ _)
      simp [globalsInit] at this
      rw [hc]
      simpa using this

theorem opening_table_read_bound_witness :
    (openingStep isElementSample Color.color1 straySample openings_O noMove
        (openingRun isElementSample Color.color1 straySample (List.replicate 5 openings_O)
          globalsInit)).tableRead = some 5 ∧
      5 = (List.replicate 5 openings_O).length ∧ 5 ≤ 5 :=
  ⟨by decide, opening_table_read_bound isElementSample Color.color1 straySample
    (List.replicate 5 openings_O) openings_O 5 (by decide)⟩

/-! ## C15: the depth actually searched -/

/-- C15 (as stated, refuted in its last part): on the tree whose boards all score
`minEvaluation() = -15000`, with max depth 0 the root has two moves, the raw evaluation
after each of them is `-15000`, and `searchBestMove` reports no move at all (no
`foundBestMove` call), so it does not return the first move maximising the raw evaluation. -/
theorem depth_zero_may_report_no_move :
    flatGame.generateMoves [] = [pathMove 0, pathMove 1] ∧
      flatGame.evaluate (flatGame.playMove [] (pathMove 0)) = -15000 ∧
      flatGame.evaluate (flatGame.playMove [] (pathMove 1)) = -15000 ∧
      flatGame.minEvaluation = -15000 ∧
      lastFound (searchBestMove flatGame 0 []).log = none ∧
      (bestMove flatGame 0 0 []).move = noMove ∧
      evalDepths (searchBestMove flatGame 0 []).log 0 = [1, 1] := by
  decide

/-- C15 (amended): for every max depth `D >= 0` and every board, each `evaluate()` call made
during `searchBestMove` happens with exactly `D + 1` moves played and not taken back since
the start of the search. In particular with `D = 0`, on a board on which `takeBack` undoes
`playMove`: if the raw evaluation after some single move exceeds `minEvaluation()`,
`searchBestMove` reports the first move maximising the raw evaluation of the position after
that single move, together with that evaluation; if no raw evaluation exceeds
`minEvaluation()`, it reports no move. -/
theorem search_depth (g : Game B) (maxDepth : Int) (b : B) (hD : 0 ≤ maxDepth) :
    (∀ x ∈ evalDepths (searchBestMove g maxDepth b).log 0, (x : Int) = maxDepth + 1) ∧
    ((∀ b m, g.takeBack (g.playMove b m) = b) →
      (∃ m ∈ g.generateMoves b, g.minEvaluation < g.evaluate (g.playMove b m)) →
      ∃ j mj, (g.generateMoves b)[j]? = some mj ∧
        lastFound (searchBestMove g 0 b).log = some (mj, g.evaluate (g.playMove b mj)) ∧
        (∀ m ∈ g.generateMoves b, g.evaluate (g.playMove b m) ≤ g.evaluate (g.playMove b mj)) ∧
        (∀ (i : Nat) (mi : Move), i < j → (g.generateMoves b)[i]? = some mi →
          g.evaluate (g.playMove b mi) < g.evaluate (g.playMove b mj))) ∧
    ((∀ b m, g.takeBack (g.playMove b m) = b) →
      (∀ m ∈ g.generateMoves b, g.evaluate (g.playMove b m) ≤ g.minEvaluation) →
      lastFound (searchBestMove g 0 b).log = none) := by
  have h0 : ∀ m, (minimax_eval g 0 0 m b).eval = g.evaluate (g.playMove b m) := by
    intro m
    rw [minimax_eval_leaf g 0 0 m b (le_refl _)]
    rfl
  refine ⟨?_, ?_, ?_⟩
  · intro x hx
    obtain ⟨h1, h2⟩ := searchLoop_evalDepths g maxDepth (g.generateMoves b) g.minEvaluation b 0
    simp only [searchBestMove, evalDepths_append, h1, evalDepths, List.append_nil] at hx
    rw [h2 x hx]
    omega
  · intro hundo hex
    obtain ⟨j, mj, hj, hfound, _, _, hmax, hfirst⟩ :=
      searchLoop_some g hundo 0 (g.generateMoves b) g.minEvaluation b
        (by obtain ⟨m, hm, hgt⟩ := hex; exact ⟨m, hm, by rw [h0]; exact hgt⟩)
    refine ⟨j, mj, hj, ?_, ?_, ?_⟩
    · simp [searchBestMove, lastFound_append, lastFound, hfound, h0]
    · intro m hm
      have := hmax m hm
      rw [h0, h0] at this
      exact this
    · intro i mi hi hmi
      have := hfirst i mi hi hmi
      rw [h0, h0] at this
      exact this
  · intro hundo hle
    obtain ⟨hnone, _⟩ := searchLoop_none g hundo 0 (g.generateMoves b) g.minEvaluation b
      (fun m hm => by rw [h0]; exact hle m hm)
    simp [searchBestMove, lastFound_append, lastFound, hnone]

theorem search_depth_witness :
    ((0 : Int) ≤ 2 ∧ (0 : Int) ≤ 0 ∧
      (∀ b m, sampleGame.takeBack (sampleGame.playMove b m) = b) ∧
      (∃ m ∈ sampleGame.generateMoves [],
        sampleGame.minEvaluation < sampleGame.evaluate (sampleGame.playMove [] m)) ∧
      evalDepths (searchBestMove sampleGame 2 []).log 0 = [3, 3, 3, 3, 3, 3, 3, 3] ∧
      lastFound (searchBestMove sampleGame 0 []).log = some (pathMove 0, 1)) ∧
    (∀ x ∈ evalDepths (searchBestMove sampleGame 2 []).log 0, (x : Int) = 2 + 1) ∧
    (∃ j mj, (sampleGame.generateMoves [])[j]? = some mj ∧
      lastFound (searchBestMove sampleGame 0 []).log =
        some (mj, sampleGame.evaluate (sampleGame.playMove [] mj)) ∧
      (∀ m ∈ sampleGame.generateMoves [], sampleGame.evaluate (sampleGame.playMove [] m) ≤
        sampleGame.evaluate (sampleGame.playMove [] mj)) ∧
      (∀ (i : Nat) (mi : Move), i < j → (sampleGame.generateMoves [])[i]? = some mi →
        sampleGame.evaluate (sampleGame.playMove [] mi) <
          sampleGame.evaluate (sampleGame.playMove [] mj))) :=
  ⟨⟨by decide, by decide, fun _ _ => rfl, by decide, by decide, by decide⟩,
    (search_depth sampleGame 2 [] (by decide)).1,
    (search_depth sampleGame 0 [] (by decide)).2.1 (fun _ _ => rfl) (by decide)⟩

/-! ## C16: termination of the recursion -/

/-- C16: for every integer max depth (zero and negative included), every depth, move and
board, the recursion of `minimax_eval(depth, m)` returns as soon as its call stack may
hold more than `max(0, maxDepth - depth)` activations, that is the call itself and at most
`max(0, maxDepth - depth)` levels nested below it, and its result is the value of the
total function `minimax_eval`; likewise `searchBestMove` returns with more than
`max(0, maxDepth)` activations allowed for each of its calls `minimax_eval(0, m)`. -/
theorem minimax_eval_terminates (g : Game B) (maxDepth depth : Int) (m : Move) (b : B) :
    (∀ fuel : Nat, max 0 (maxDepth - depth) < (fuel : Int) →
      minimax_evalFuel g maxDepth fuel depth m b = some (minimax_eval g maxDepth depth m b)) ∧
    (∀ fuel : Nat, max 0 maxDepth < (fuel : Int) →
      searchBestMoveFuel g maxDepth fuel b = some (searchBestMove g maxDepth b)) := by
  constructor
  · intro fuel hfuel
    exact minimax_evalFuel_some g maxDepth fuel depth m b (by omega)
  · intro fuel hfuel
    simp [searchBestMoveFuel, searchBestMove,
      searchLoopFuel_some g maxDepth fuel (g.generateMoves b) g.minEvaluation b (by omega)]

theorem minimax_eval_terminates_witness :
    (max 0 ((2 : Int) - 0) < ((3 : Nat) : Int) ∧ max 0 ((-3 : Int) - 1) < ((1 : Nat) : Int) ∧
      max 0 (2 : Int) < ((3 : Nat) : Int) ∧
      (minimax_evalFuel sampleGame 2 2 0 (pathMove 0) []).isNone = true ∧
      (minimax_evalFuel sampleGame 2 3 0 (pathMove 0) []).isSome = true ∧
      (minimax_evalFuel sampleGame (-3) 1 1 (pathMove 0) []).isSome = true) ∧
    minimax_evalFuel sampleGame 2 3 0 (pathMove 0) [] =
      some (minimax_eval sampleGame 2 0 (pathMove 0) []) ∧
    minimax_evalFuel sampleGame (-3) 1 1 (pathMove 0) [] =
      some (minimax_eval sampleGame (-3) 1 (pathMove 0) []) ∧
    searchBestMoveFuel sampleGame 2 3 [] = some (searchBestMove sampleGame 2 []) :=
  ⟨⟨by decide, by decide, by decide, by decide, by decide, by decide⟩,
    (minimax_eval_terminates sampleGame 2 0 (pathMove 0) []).1 3 (by decide),
    (minimax_eval_terminates sampleGame (-3) 1 (pathMove 0) []).1 1 (by decide),
    (minimax_eval_terminates sampleGame 2 0 (pathMove 0) []).2 3 (by decide)⟩

end Abalone
